import Mathlib

/-!
Verification of the nested-data codec (`flatten` / `unflatten`) from
`cartridges/utils/wandb.py`.

The embedding models Python values as the inductive type `Value`:
scalars (ints, strings, booleans, `None`, and floats, with the float NaN
singled out as its own constructor because the only float operation the
code performs is `np.isnan`), lists, and dicts.  Python dicts are modelled
as insertion-ordered association lists with the usual dict operations:
`assocGet` (first-match lookup), `assocSet` (replace in place if the key is
present, append otherwise — exactly `d[k] = v`), and `updAll`
(`dict.update`).  Fallible Python code (statements that can raise
`TypeError` / `KeyError`) is modelled in `Except Unit`.

`int(k)` is modelled by `parsePyInt`, following Python's `int()` on a
string argument: surrounding whitespace (Python's full whitespace set,
`isPySpace`) is stripped, then an optional ASCII sign, then a nonempty run
of ASCII digits in which single underscores may separate digit groups.
The one remaining narrowing is deliberate and documented: Python's `int()`
also accepts non-ASCII decimal digits (the Unicode Nd category, hundreds
of code points); keys containing such characters are outside this model,
so every theorem whose truth depends on some key failing `int()` carries
an `asciiStr`/`asciiKeys` hypothesis, under which `parsePyInt` agrees with
`int()` exactly.  `str(i)` is modelled by `natToStr` / `intToStr` (decimal
rendering), and `key.split(".")` by `pySplit`, a direct recursive
implementation of Python `str.split` for a one-character separator.
-/

inductive Scalar where
  | int (n : Int)
  | str (s : String)
  | bool (b : Bool)
  | null
  | nan
  | float (q : Rat)
deriving DecidableEq

/-- A Python value as handled by `flatten` / `unflatten`: a scalar, a list,
or an insertion-ordered dict (association list). -/
inductive Value where
  | scalar (s : Scalar)
  | list (xs : List Value)
  | dict (kvs : List (String × Value))

/-- Python dict lookup `d[k]` / `k in d` (first matching binding). -/
def assocGet : List (String × Value) → String → Option Value
  | [], _ => none
  | (k', v) :: rest, k => if k' = k then some v else assocGet rest k

/-- Python dict assignment `d[k] = v`: replace the binding in place if the
key is present (keeping its position), append it otherwise. -/
def assocSet : List (String × Value) → String → Value → List (String × Value)
  | [], k, v => [(k, v)]
  | (k', v') :: rest, k, v =>
    if k' = k then (k, v) :: rest else (k', v') :: assocSet rest k v

/-- Decimal digits of `n` as characters, most significant first; the first
argument is structural fuel (any fuel at least `n` is enough). -/
def natToStrAux : Nat → Nat → List Char
  | 0, _ => []
  | fuel + 1, n =>
    if n = 0 then [] else natToStrAux fuel (n / 10) ++ [Nat.digitChar (n % 10)]

/-- Python `str(n)` for a natural number: decimal rendering. -/
def natToStr (n : Nat) : String :=
  if n = 0 then "0" else String.mk (natToStrAux n n)

/-- Python `str(i)` for an integer: decimal rendering with a leading `-`
for negative numbers. -/
def intToStr : Int → String
  | .ofNat n => natToStr n
  | .negSucc m => "-" ++ natToStr (m + 1)

/-- A character is an ASCII decimal digit. -/
def isDigitChar (c : Char) : Bool := decide ('0' ≤ c) && decide (c ≤ '9')

/-- Value of an ASCII digit character. -/
def digitVal (c : Char) : Nat := c.toNat - 48

/-- Reads a digit string most-significant-first. -/
def parseNatDigits (l : List Char) : Nat := l.foldl (fun a c => a * 10 + digitVal c) 0

/-- The exact set of characters Python's `int()` strips around a numeral:
`\t`-`\r`, space, `\x85`, no-break space, and the Unicode space
separators (determined exhaustively against CPython). -/
def isPySpace (c : Char) : Bool :=
  decide ((0x09 ≤ c.toNat ∧ c.toNat ≤ 0x0D) ∨ c.toNat = 0x20 ∨
    c.toNat = 0x85 ∨ c.toNat = 0xA0 ∨ c.toNat = 0x1680 ∨
    (0x2000 ≤ c.toNat ∧ c.toNat ≤ 0x200A) ∨ c.toNat = 0x2028 ∨ c.toNat = 0x2029 ∨
    c.toNat = 0x202F ∨ c.toNat = 0x205F ∨ c.toNat = 0x3000)

/-- Strips Python whitespace from both ends, as `int()` does before
parsing. -/
def pyStrip (l : List Char) : List Char :=
  ((l.dropWhile isPySpace).reverse.dropWhile isPySpace).reverse

mutual
/-- After an initial digit: the rest of a Python integer literal body,
where a single underscore may separate digit groups (`1_000` parses,
`1__0`, `1_` do not). -/
def pyDigitsAux : List Char → Bool
  | [] => true
  | c :: rest =>
    if isDigitChar c then pyDigitsAux rest
    else if c = '_' then pyDigitsGroup rest
    else false

/-- Directly after an underscore: a digit must follow. -/
def pyDigitsGroup : List Char → Bool
  | [] => false
  | c :: rest => isDigitChar c && pyDigitsAux rest
end

/-- A nonempty run of ASCII digits with single underscores between digit
groups: the digit part of Python's integer-literal grammar for `int()`. -/
def pyDigits : List Char → Bool
  | [] => false
  | c :: rest => isDigitChar c && pyDigitsAux rest

/-- Python `int(s)` on a string: strip surrounding whitespace, an optional
sign, then underscore-grouped ASCII digits; anything else raises
`ValueError`, modelled as `none`.  (Non-ASCII decimal digits, which
Python also accepts, are outside the model; theorems that rely on a key
failing to parse restrict keys to ASCII.) -/
def parsePyInt (s : String) : Option Int :=
  match pyStrip s.data with
  | [] => none
  | c :: rest =>
    if c = '-' then
      if pyDigits rest then
        some (-(parseNatDigits (rest.filter (fun x => !(x == '_'))) : Int))
      else none
    else if c = '+' then
      if pyDigits rest then
        some (parseNatDigits (rest.filter (fun x => !(x == '_'))) : Int)
      else none
    else if pyDigits (c :: rest) then
      some (parseNatDigits ((c :: rest).filter (fun x => !(x == '_'))) : Int)
    else none

/-- Splits a character list on a separator character; like Python
`str.split`, the result always has one more group than there are
separators (so the empty input yields one empty group). -/
def splitCharList (sep : Char) : List Char → List (List Char)
  | [] => [[]]
  | c :: rest =>
    if c = sep then [] :: splitCharList sep rest
    else
      match splitCharList sep rest with
      | [] => [[c]]
      | g :: gs => (c :: g) :: gs

/-- Python `key.split(".")`. -/
def pySplit (s : String) : List String := (splitCharList '.' s.data).map String.mk

/-- The NaN test in `unflatten`: `isinstance(value, (np.float64, np.float32,
float)) and np.isnan(value)`.  Only the float NaN satisfies it. -/
def isNanValue : Value → Bool
  | .scalar .nan => true
  | _ => false

/-- One iteration of `unflatten`'s main loop after the key has been split:
walk `parts` from the current node, creating an empty dict for each
missing segment, then (unless `skip` — the NaN check, which Python runs
only after the walk) assign `v` under `last`.  Every operation Python
performs on a non-dict during the walk or the final assignment raises
(`TypeError`), modelled as `Except.error ()`. -/
def walkAssign : Value → List String → String → Bool → Value → Except Unit Value
  | node, [], last, skip, v =>
    if skip then .ok node
    else
      match node with
      | .dict kvs => .ok (.dict (assocSet kvs last v))
      | _ => .error ()
  | node, p :: rest, last, skip, v =>
    match node with
    | .dict kvs =>
      match assocGet kvs p with
      | some sub =>
        match walkAssign sub rest last skip v with
        | .ok sub' => .ok (.dict (assocSet kvs p sub'))
        | .error u => .error u
      | none =>
        match walkAssign (.dict []) rest last skip v with
        | .ok sub' => .ok (.dict (assocSet kvs p sub'))
        | .error u => .error u
    | _ => .error ()

/-- The comprehension `[int(k) for k in d.keys()]`: all keys parsed as
integers, or `none` if any parse raises `ValueError`. -/
def mapParse : List (String × Value) → Option (List Int)
  | [] => some []
  | p :: rest =>
    match parsePyInt p.1, mapParse rest with
    | some k, some ks => some (k :: ks)
    | _, _ => none

/-- Python `min` on a list of ints (`none` models the `ValueError` raised
on an empty list). -/
def pyMin : List Int → Option Int
  | [] => none
  | x :: xs => some (xs.foldl min x)

/-- Python `max` on a list of ints. -/
def pyMax : List Int → Option Int
  | [] => none
  | x :: xs => some (xs.foldl max x)

/-- Helper for `intRange`: `n` consecutive integers starting at `a`. -/
def intRangeGo : Nat → Int → List Int
  | 0, _ => []
  | n + 1, a => a :: intRangeGo n (a + 1)

/-- Python `list(range(lo, hi))`. -/
def intRange (lo hi : Int) : List Int := intRangeGo (hi - lo).toNat lo

/-- The comprehension `[d[str(k)] for k in keys]`: looks every rendered key
up; `none` models the uncaught `KeyError` when a rendering is absent. -/
def mapLookup (kvs : List (String × Value)) : List Int → Option (List Value)
  | [] => some []
  | k :: rest =>
    match assocGet kvs (intToStr k), mapLookup kvs rest with
    | some v, some vs => some (v :: vs)
    | _, _ => none

mutual
/-- `convert_to_list` from `unflatten`: on a dict, try to parse every key
as an integer (`ValueError` falls through), sort the parsed keys, and if
they form the contiguous range from their minimum to their maximum,
return the list of values looked up by the canonical rendering of each
key in ascending order (a missing rendering is an uncaught `KeyError`);
otherwise rebuild the dict with the rule applied to each value.
Non-dicts (including lists) are returned unchanged. -/
def convert_to_list : Value → Except Unit Value
  | .scalar s => .ok (.scalar s)
  | .list xs => .ok (.list xs)
  | .dict kvs =>
    match mapParse kvs with
    | some ks =>
      match pyMin (List.insertionSort (· ≤ ·) ks), pyMax (List.insertionSort (· ≤ ·) ks) with
      | some lo, some hi =>
        if List.insertionSort (· ≤ ·) ks = intRange lo (hi + 1) then
          match mapLookup kvs (List.insertionSort (· ≤ ·) ks) with
          | some vs => .ok (.list vs)
          | none => .error ()
        else
          match convertVals kvs with
          | .ok kvs' => .ok (.dict kvs')
          | .error u => .error u
      | _, _ =>
        match convertVals kvs with
        | .ok kvs' => .ok (.dict kvs')
        | .error u => .error u
    | none =>
      match convertVals kvs with
      | .ok kvs' => .ok (.dict kvs')
      | .error u => .error u

/-- The comprehension `{k: convert_to_list(v) for k, v in d.items()}`,
propagating the first exception. -/
def convertVals : List (String × Value) → Except Unit (List (String × Value))
  | [] => .ok []
  | (k, v) :: rest =>
    match convert_to_list v with
    | .ok v' =>
      match convertVals rest with
      | .ok rest' => .ok ((k, v') :: rest')
      | .error u => .error u
    | .error u => .error u
end

/-- One iteration of `unflatten`'s main loop: split the key, walk/create
the path, and assign unless the value is NaN. -/
def processEntry (acc : Value) (e : String × Value) : Except Unit Value :=
  let parts := pySplit e.1
  walkAssign acc parts.dropLast (parts.getLastD "") (isNanValue e.2) e.2

/-- The main loop of `unflatten` over the flat dict's entries. -/
def buildNested : List (String × Value) → Value → Except Unit Value
  | [], acc => .ok acc
  | e :: rest, acc =>
    match processEntry acc e with
    | .ok acc' => buildNested rest acc'
    | .error u => .error u

/-- `unflatten(d)`: rebuild the nested dict from the flat entries, then
apply `convert_to_list` to the result. -/
def unflatten (d : List (String × Value)) : Except Unit Value :=
  match buildNested d (.dict []) with
  | .ok result => convert_to_list result
  | .error u => .error u

/-- Spec-side view of one `unflatten` iteration, with the key already
split into its segment list: exactly `processEntry` after `pySplit`. -/
def walkEntry (acc : Value) (e : List String × Value) : Except Unit Value :=
  walkAssign acc e.1.dropLast (e.1.getLastD "") (isNanValue e.2) e.2

/-- Spec-side view of `unflatten`'s main loop over already-split keys. -/
def buildSegs : List (List String × Value) → Value → Except Unit Value
  | [], acc => .ok acc
  | e :: rest, acc =>
    match walkEntry acc e with
    | .ok acc' => buildSegs rest acc'
    | .error u => .error u

/-- The value is a dict or a list at its root.  (A scalar at the root is
flattened under the `None` key, which `unflatten` cannot consume.) -/
def isContainer : Value → Bool
  | .scalar _ => false
  | .list _ => true
  | .dict _ => true

/-- Flat dictionaries: `flatten` keys its output by the accumulated parent
key, which is `None` (not a string) exactly when the input itself is a
scalar. -/
abbrev Flat := List (Option String × Value)

/-- Dict update `items[new_key] = v` on the flat accumulator (same
semantics as `assocSet`, with optional keys). -/
def updEntry : Flat → Option String → Value → Flat
  | [], k, v => [(k, v)]
  | (k', v') :: rest, k, v =>
    if k' = k then (k, v) :: rest else (k', v') :: updEntry rest k v

/-- Python `items.update(sub)`. -/
def updAll (items sub : Flat) : Flat := sub.foldl (fun acc e => updEntry acc e.1 e.2) items

/-- `f"{parent_key}{sep}{k}" if parent_key is not None else k`. -/
def childKey (sep : String) (pk : Option String) (k : String) : String :=
  match pk with
  | none => k
  | some p => p ++ sep ++ k

/-- The key of a flat entry re-based under a parent key `p`: the `None`
key (a scalar directly at the current node) becomes `p` itself, and a key
`r` becomes `p.r` — exactly the effect of `flatten`'s f-string. -/
def withPre (p : String) : Option String → Option String
  | none => some p
  | some r => some (p ++ "." ++ r)

mutual
/-- `flatten(data, parent_key, sep)`: lists and dicts flatten each
child under the extended key and merge with `items.update`; anything else
is a single entry under the accumulated parent key. -/
def flatten (sep : String) : Value → Option String → Flat
  | .scalar s, pk => [(pk, .scalar s)]
  | .list xs, pk => flattenList sep xs pk 0 []
  | .dict kvs, pk => flattenDict sep kvs pk []

/-- The `for i, v in enumerate(data)` loop of `flatten`, carrying the
`items` accumulator and the current index. -/
def flattenList (sep : String) : List Value → Option String → Nat → Flat → Flat
  | [], _, _, items => items
  | v :: rest, pk, i, items =>
    flattenList sep rest pk (i + 1) (updAll items (flatten sep v (some (childKey sep pk (natToStr i)))))

/-- The `for k, v in data.items()` loop of `flatten`. -/
def flattenDict (sep : String) : List (String × Value) → Option String → Flat → Flat
  | [], _, items => items
  | (k, v) :: rest, pk, items =>
    flattenDict sep rest pk (updAll items (flatten sep v (some (childKey sep pk k))))
end

/-- `flatten` at its defaults (`parent_key=None`, `sep="."`). -/
def flattenTop (v : Value) : Flat := flatten "." v none

/-- The flat output with its keys as plain strings, for feeding back into
`unflatten`; when the input is a dict or a list every key is a string, so
nothing is dropped. -/
def flattenStr (v : Value) : List (String × Value) :=
  (flattenTop v).filterMap (fun e => e.1.map (fun k => (k, e.2)))

example : unflatten [("a.b", .scalar (.int 1)), ("a.c", .scalar .nan)] =
    .ok (.dict [("a", .dict [("b", .scalar (.int 1))])]) := rfl

example : unflatten [("a", .scalar (.int 1)), ("a.b", .scalar (.int 2))] = .error () := rfl

example : unflatten [("x.1", .scalar (.str "a")), ("x.2", .scalar (.str "b"))] =
    .ok (.dict [("x", .list [.scalar (.str "a"), .scalar (.str "b")])]) := rfl

example : unflatten [("x.0", .scalar (.str "a")), ("x.2", .scalar (.str "b"))] =
    .ok (.dict [("x", .dict [("0", .scalar (.str "a")), ("2", .scalar (.str "b"))])]) := rfl

example : unflatten [("x.01", .scalar (.str "a"))] = .error () := rfl

example : unflatten [("a.b", .scalar .nan)] = .ok (.dict [("a", .dict [])]) := rfl

example : unflatten [("x.0.0", .scalar (.str "a")), ("x.0.1", .scalar (.str "b"))] =
    .ok (.dict [("x", .list [.dict [("0", .scalar (.str "a")), ("1", .scalar (.str "b"))]])]) := rfl

example :
    flattenTop (.dict [("a", .scalar (.int 1)),
      ("b", .dict [("c", .scalar (.int 2)), ("d", .dict [("e", .scalar (.int 3))])]),
      ("f", .list [.scalar (.int 4), .scalar (.int 5)])]) =
    [(some "a", .scalar (.int 1)), (some "b.c", .scalar (.int 2)),
     (some "b.d.e", .scalar (.int 3)), (some "f.0", .scalar (.int 4)),
     (some "f.1", .scalar (.int 5))] := rfl

example : unflatten (flattenStr (.list [.list [.scalar (.int 1)]])) =
    .ok (.list [.dict [("0", .scalar (.int 1))]]) := rfl

example : parsePyInt " 1" = some 1 := rfl
example : parsePyInt "1_000" = some 1000 := rfl
example : parsePyInt "1__0" = none := rfl
example : parsePyInt "_1" = none := rfl
example : parsePyInt "1_" = none := rfl
example : parsePyInt " -5 " = some (-5) := rfl
example : parsePyInt "+ 5" = none := rfl
example : parsePyInt "" = none := rfl
example : parsePyInt "01" = some 1 := rfl
example : parsePyInt "	42
" = some 42 := rfl
example : parsePyInt "-_1" = none := rfl
example : parsePyInt " +7" = some 7 := rfl
example : parsePyInt "nan" = none := rfl

example : unflatten [(" 1", .scalar (.int 5))] = .error () := rfl

example : unflatten [(" 1.y", .scalar .nan)] = .error () := rfl

example : unflatten [("1_000", .scalar (.int 5))] = .error () := rfl

example : unflatten [("a b", .scalar (.int 1))] =
    .ok (.dict [("a b", .scalar (.int 1))]) := rfl

/-! ### Spec-side structure of a nested value

`entriesV v` lists the root-to-leaf path (as a segment list) and the leaf
value of every scalar leaf of `v`, in `flatten`'s traversal order.
`reconstructV v` is the tree `unflatten`'s main loop rebuilds before
`convert_to_list` runs: `v` with every list turned into a dict keyed by
the decimal renderings of `0, 1, 2, …`. -/

mutual
def entriesV : Value → List (List String × Value)
  | .scalar s => [([], .scalar s)]
  | .list xs => entriesL 0 xs
  | .dict kvs => entriesD kvs

def entriesL : Nat → List Value → List (List String × Value)
  | _, [] => []
  | i, v :: rest =>
    (entriesV v).map (fun e => (natToStr i :: e.1, e.2)) ++ entriesL (i + 1) rest

def entriesD : List (String × Value) → List (List String × Value)
  | [] => []
  | (k, v) :: rest =>
    (entriesV v).map (fun e => (k :: e.1, e.2)) ++ entriesD rest
end

/-- The dict with keys `str i, str (i+1), …` over the given values. -/
def enumDict : Nat → List Value → List (String × Value)
  | _, [] => []
  | i, v :: rest => (natToStr i, v) :: enumDict (i + 1) rest

mutual
def reconstructV : Value → Value
  | .scalar s => .scalar s
  | .list xs => .dict (reconL 0 xs)
  | .dict kvs => .dict (reconD kvs)

def reconL : Nat → List Value → List (String × Value)
  | _, [] => []
  | i, v :: rest => (natToStr i, reconstructV v) :: reconL (i + 1) rest

def reconD : List (String × Value) → List (String × Value)
  | [] => []
  | (k, v) :: rest => (k, reconstructV v) :: reconD rest
end

mutual
/-- Number of scalar leaves. -/
def leafCount : Value → Nat
  | .scalar _ => 1
  | .list xs => leafCountL xs
  | .dict kvs => leafCountD kvs

def leafCountL : List Value → Nat
  | [] => 0
  | v :: rest => leafCount v + leafCountL rest

def leafCountD : List (String × Value) → Nat
  | [] => 0
  | (_, v) :: rest => leafCount v + leafCountD rest
end

/-- The key contains no `.` (the delimiter). -/
def dotFreeStr (s : String) : Bool := s.data.all (fun c => !(c == '.'))

mutual
/-- No dict key anywhere in the value contains the delimiter. -/
def dotFreeKeys : Value → Bool
  | .scalar _ => true
  | .list xs => dotFreeKeysL xs
  | .dict kvs => dotFreeKeysD kvs

def dotFreeKeysL : List Value → Bool
  | [] => true
  | v :: rest => dotFreeKeys v && dotFreeKeysL rest

def dotFreeKeysD : List (String × Value) → Bool
  | [] => true
  | (k, v) :: rest => dotFreeStr k && dotFreeKeys v && dotFreeKeysD rest
end

/-- The string is absent from the list (no duplicate-detection yet). -/
def keyAbsent (k : String) : List String → Bool
  | [] => true
  | k' :: rest => !(k' == k) && keyAbsent k rest

/-- The keys of an association list, in order. -/
def keysOf (kvs : List (String × Value)) : List String := kvs.map (fun p => p.1)

mutual
/-- Every dict node has pairwise-distinct keys (the invariant every real
Python dict satisfies). -/
def nodupKeys : Value → Bool
  | .scalar _ => true
  | .list xs => nodupKeysL xs
  | .dict kvs => nodupKeysD kvs

def nodupKeysL : List Value → Bool
  | [] => true
  | v :: rest => nodupKeys v && nodupKeysL rest

def nodupKeysD : List (String × Value) → Bool
  | [] => true
  | (k, v) :: rest => keyAbsent k (keysOf rest) && nodupKeys v && nodupKeysD rest
end

mutual
/-- No empty list or empty dict occurs anywhere in the value. -/
def noEmptyNodes : Value → Bool
  | .scalar _ => true
  | .list xs => !xs.isEmpty && noEmptyNodesL xs
  | .dict kvs => !kvs.isEmpty && noEmptyNodesD kvs

def noEmptyNodesL : List Value → Bool
  | [] => true
  | v :: rest => noEmptyNodes v && noEmptyNodesL rest

def noEmptyNodesD : List (String × Value) → Bool
  | [] => true
  | (_, v) :: rest => noEmptyNodes v && noEmptyNodesD rest
end

mutual
/-- No NaN scalar occurs anywhere in the value. -/
def noNaN : Value → Bool
  | .scalar s => !(s == .nan)
  | .list xs => noNaNL xs
  | .dict kvs => noNaND kvs

def noNaNL : List Value → Bool
  | [] => true
  | v :: rest => noNaN v && noNaNL rest

def noNaND : List (String × Value) → Bool
  | [] => true
  | (_, v) :: rest => noNaN v && noNaND rest
end

/-- The branch condition of `convert_to_list` on a dict's bindings: every
key parses as an integer and the sorted parsed keys form the contiguous
range from their minimum to their maximum. -/
def convertibleKeys (kvs : List (String × Value)) : Bool :=
  match mapParse kvs with
  | some ks =>
    match pyMin (List.insertionSort (· ≤ ·) ks), pyMax (List.insertionSort (· ≤ ·) ks) with
    | some lo, some hi => List.insertionSort (· ≤ ·) ks = intRange lo (hi + 1)
    | _, _ => false
  | none => false

mutual
/-- No dict node of the value has keys that `convert_to_list` would turn
into a list. -/
def noConvertibleDict : Value → Bool
  | .scalar _ => true
  | .list xs => noConvertibleDictL xs
  | .dict kvs => !(convertibleKeys kvs) && noConvertibleDictD kvs

def noConvertibleDictL : List Value → Bool
  | [] => true
  | v :: rest => noConvertibleDict v && noConvertibleDictL rest

def noConvertibleDictD : List (String × Value) → Bool
  | [] => true
  | (_, v) :: rest => noConvertibleDict v && noConvertibleDictD rest
end

mutual
/-- The value contains no list node at all. -/
def listFree : Value → Bool
  | .scalar _ => true
  | .list _ => false
  | .dict kvs => listFreeD kvs

def listFreeD : List (String × Value) → Bool
  | [] => true
  | (_, v) :: rest => listFree v && listFreeD rest
end

/-- All characters are plain ASCII (code point below 128).  On ASCII
strings `parsePyInt` agrees with Python's `int()` exactly; `int()` also
accepts non-ASCII decimal digits, which are outside the model. -/
def asciiStr (s : String) : Bool := s.data.all (fun c => decide (c.toNat < 128))

mutual
/-- Every dict key anywhere in the value is plain ASCII. -/
def asciiKeys : Value → Bool
  | .scalar _ => true
  | .list xs => asciiKeysL xs
  | .dict kvs => asciiKeysD kvs

def asciiKeysL : List Value → Bool
  | [] => true
  | v :: rest => asciiKeys v && asciiKeysL rest

def asciiKeysD : List (String × Value) → Bool
  | [] => true
  | (k, v) :: rest => asciiStr k && asciiKeys v && asciiKeysD rest
end

mutual
/-- Every list node's elements are entirely list-free: no list occurs
strictly inside another list. -/
def noNestedLists : Value → Bool
  | .scalar _ => true
  | .list xs => noNestedListsL xs
  | .dict kvs => noNestedListsD kvs

def noNestedListsL : List Value → Bool
  | [] => true
  | v :: rest => listFree v && noNestedListsL rest

def noNestedListsD : List (String × Value) → Bool
  | [] => true
  | (_, v) :: rest => noNestedLists v && noNestedListsD rest
end

/-- The parent-key string corresponding to a path of segments already
consumed: `None` at the root, otherwise the segments joined by `.`. -/
def joinDot : List String → String
  | [] => ""
  | [s] => s
  | s :: rest => s ++ "." ++ joinDot rest

/-- Optional-key form of `joinDot`: the accumulated `parent_key` after
descending through the given segments. -/
def segsToKey : List String → Option String
  | [] => none
  | l => some (joinDot l)

/-! ### Splitting and joining keys -/

@[simp]
theorem mk_data (s : String) : String.mk s.data = s := rfl

theorem joinDot_cons_cons (s t : String) (rest : List String) :
    joinDot (s :: t :: rest) = s ++ "." ++ joinDot (t :: rest) := rfl

theorem splitCharList_sepfree (sep : Char) :
    ∀ (l r : List Char) (g : List Char) (gs : List (List Char)),
      (∀ c ∈ l, ¬(c = sep)) → splitCharList sep r = g :: gs →
      splitCharList sep (l ++ r) = (l ++ g) :: gs := by
  intro l
  induction l with
  | nil => intro r g gs _ h2; simpa using h2
  | cons c l' ih =>
    intro r g gs h1 h2
    have hc : ¬(c = sep) := h1 c (by simp)
    have := ih r g gs (fun x hx => h1 x (by simp [hx])) h2
    simp [splitCharList, if_neg hc, List.append_eq, this]

theorem dotFreeStr_forall {g : String} (h : dotFreeStr g = true) :
    ∀ c ∈ g.data, ¬(c = '.') := by
  intro c hc
  have := List.all_eq_true.mp h c hc
  simpa using this

theorem splitCharList_join :
    ∀ gs : List String, gs ≠ [] → (∀ g ∈ gs, dotFreeStr g = true) →
      splitCharList '.' (joinDot gs).data = gs.map String.data := by
  intro gs
  induction gs with
  | nil => intro h; exact absurd rfl h
  | cons s rest ih =>
    intro _ h2
    match rest with
    | [] =>
      have : splitCharList '.' (s.data ++ []) = (s.data ++ []) :: [] :=
        splitCharList_sepfree '.' s.data [] [] [] (dotFreeStr_forall (h2 s (by simp))) rfl
      simpa [joinDot] using this
    | t :: rest' =>
      have hrest : splitCharList '.' (joinDot (t :: rest')).data = (t :: rest').map String.data :=
        ih (by simp) (fun g hg => h2 g (by simp [hg]))
      have hdot : splitCharList '.' ('.' :: (joinDot (t :: rest')).data) =
          [] :: (t :: rest').map String.data := by
        simp [splitCharList, hrest]
      have := splitCharList_sepfree '.' s.data ('.' :: (joinDot (t :: rest')).data)
        [] ((t :: rest').map String.data) (dotFreeStr_forall (h2 s (by simp))) hdot
      rw [joinDot_cons_cons]
      simpa [String.data_append] using this

theorem pySplit_joinDot (gs : List String) (h1 : gs ≠ [])
    (h2 : ∀ g ∈ gs, dotFreeStr g = true) : pySplit (joinDot gs) = gs := by
  unfold pySplit
  rw [splitCharList_join gs h1 h2, List.map_map]
  have hid : String.mk ∘ String.data = id := funext fun s => rfl
  rw [hid, List.map_id]

theorem joinDot_inj {gs1 gs2 : List String} (n1 : gs1 ≠ []) (n2 : gs2 ≠ [])
    (d1 : ∀ g ∈ gs1, dotFreeStr g = true) (d2 : ∀ g ∈ gs2, dotFreeStr g = true)
    (h : joinDot gs1 = joinDot gs2) : gs1 = gs2 := by
  have := congrArg pySplit h
  rwa [pySplit_joinDot gs1 n1 d1, pySplit_joinDot gs2 n2 d2] at this

theorem joinDot_append_last (l : List String) (s : String) (h : l ≠ []) :
    joinDot (l ++ [s]) = joinDot l ++ "." ++ s := by
  induction l with
  | nil => exact absurd rfl h
  | cons a l' ih =>
    match l' with
    | [] => rfl
    | b :: l'' =>
      have := ih (by simp)
      simp only [List.cons_append, joinDot_cons_cons]
      rw [List.cons_append] at this
      rw [this]
      simp [String.append_assoc]

theorem childKey_segsToKey (pre : List String) (k : String) :
    childKey "." (segsToKey pre) k = joinDot (pre ++ [k]) := by
  match pre with
  | [] => rfl
  | p :: rest =>
    show joinDot (p :: rest) ++ "." ++ k = _
    rw [joinDot_append_last (p :: rest) k (by simp)]

/-! ### Decimal rendering and parsing -/

theorem natToStrAux_eq_digits :
    ∀ (fuel n : Nat), n ≤ fuel →
      natToStrAux fuel n = ((Nat.digits 10 n).map Nat.digitChar).reverse := by
  intro fuel
  induction fuel with
  | zero =>
    intro n hn
    have : n = 0 := Nat.le_zero.mp hn
    subst this
    simp [natToStrAux]
  | succ fuel ih =>
    intro n hn
    by_cases h0 : n = 0
    · subst h0; simp [natToStrAux]
    · have hpos : 0 < n := Nat.pos_of_ne_zero h0
      have hdig : Nat.digits 10 n = n % 10 :: Nat.digits 10 (n / 10) :=
        Nat.digits_def' (by norm_num) hpos
      have hdiv : n / 10 ≤ fuel := by
        have := Nat.div_lt_self hpos (by norm_num : 1 < 10)
        omega
      simp [natToStrAux, h0, hdig, ih (n / 10) hdiv]

theorem digitChar_facts :
    ∀ d < 10, isDigitChar (Nat.digitChar d) = true ∧ digitVal (Nat.digitChar d) = d ∧
      ¬(Nat.digitChar d = '.') ∧ ¬(Nat.digitChar d = '-') ∧ ¬(Nat.digitChar d = '+') := by
  decide

theorem parseNatDigits_append (l : List Char) (c : Char) :
    parseNatDigits (l ++ [c]) = parseNatDigits l * 10 + digitVal c := by
  simp [parseNatDigits, List.foldl_append]

theorem parseNatDigits_ofDigits :
    ∀ ds : List Nat, (∀ d ∈ ds, d < 10) →
      parseNatDigits ((ds.map Nat.digitChar).reverse) = Nat.ofDigits 10 ds := by
  intro ds
  induction ds with
  | nil => intro; rfl
  | cons d ds' ih =>
    intro h
    have hd : d < 10 := h d (by simp)
    have hrest := ih (fun x hx => h x (by simp [hx]))
    simp only [List.map_cons, List.reverse_cons, parseNatDigits_append, hrest,
      (digitChar_facts d hd).2.1, Nat.ofDigits_cons]
    ring

theorem natToStr_data (n : Nat) (h : n ≠ 0) :
    (natToStr n).data = ((Nat.digits 10 n).map Nat.digitChar).reverse := by
  simp only [natToStr, if_neg h]
  exact natToStrAux_eq_digits n n le_rfl

theorem natToStr_data_all_digits (n : Nat) :
    (natToStr n).data ≠ [] ∧ (natToStr n).data.all isDigitChar = true := by
  by_cases h : n = 0
  · subst h; decide
  · rw [natToStr_data n h]
    constructor
    · simp [Nat.digits_ne_nil_iff_ne_zero.mpr h]
    · rw [List.all_eq_true]
      intro c hc
      rw [List.mem_reverse, List.mem_map] at hc
      obtain ⟨d, hd, rfl⟩ := hc
      exact (digitChar_facts d (Nat.digits_lt_base (by norm_num) hd)).1

theorem isDigitChar_not_special {c : Char} (h : isDigitChar c = true) :
    ¬(c = '-') ∧ ¬(c = '+') ∧ ¬(c = '.') := by
  refine ⟨?_, ?_, ?_⟩ <;> rintro rfl <;> simp [isDigitChar] at h

theorem isDigitChar_toNat {c : Char} (h : isDigitChar c = true) :
    48 ≤ c.toNat ∧ c.toNat ≤ 57 := by
  rw [isDigitChar, Bool.and_eq_true, decide_eq_true_eq, decide_eq_true_eq] at h
  obtain ⟨h1, h2⟩ := h
  rw [Char.le_def, UInt32.le_def, BitVec.le_def] at h1 h2
  exact ⟨h1, h2⟩

theorem isDigitChar_space {c : Char} (h : isDigitChar c = true) : isPySpace c = false := by
  obtain ⟨h1, h2⟩ := isDigitChar_toNat h
  rw [isPySpace, decide_eq_false_iff_not]
  omega

theorem isDigitChar_underscore {c : Char} (h : isDigitChar c = true) : (c == '_') = false := by
  obtain ⟨h1, h2⟩ := isDigitChar_toNat h
  rw [beq_eq_false_iff_ne]
  rintro rfl
  simp at h2

theorem pyStrip_of_no_space {l : List Char} (h : ∀ c ∈ l, isPySpace c = false) :
    pyStrip l = l := by
  have h1 : l.dropWhile isPySpace = l := by
    rcases l with _ | ⟨c, rest⟩
    · rfl
    · rw [List.dropWhile_cons, if_neg (by simp [h c (by simp)])]
  have h2 : l.reverse.dropWhile isPySpace = l.reverse := by
    rcases hrev : l.reverse with _ | ⟨c, rest⟩
    · rfl
    · have hc : c ∈ l := by
        rw [← List.mem_reverse, hrev]
        simp
      rw [List.dropWhile_cons, if_neg (by simp [h c hc])]
  rw [pyStrip, h1, h2, List.reverse_reverse]

theorem pyDigitsAux_all : ∀ l : List Char, l.all isDigitChar = true → pyDigitsAux l = true := by
  intro l
  induction l with
  | nil => intro _; rfl
  | cons c rest ih =>
    intro h
    rw [List.all_cons, Bool.and_eq_true] at h
    rw [pyDigitsAux, if_pos h.1, ih h.2]

theorem pyDigits_all {l : List Char} (hne : l ≠ []) (h : l.all isDigitChar = true) :
    pyDigits l = true := by
  rcases l with _ | ⟨c, rest⟩
  · exact absurd rfl hne
  · rw [List.all_cons, Bool.and_eq_true] at h
    rw [pyDigits, h.1, pyDigitsAux_all rest h.2]
    rfl

theorem filter_underscore_of_digits {l : List Char} (h : l.all isDigitChar = true) :
    l.filter (fun x => !(x == '_')) = l := by
  rw [List.filter_eq_self]
  intro a ha
  have hd : isDigitChar a = true := by
    have := List.all_eq_true.mp h a ha
    simpa using this
  simp [isDigitChar_underscore hd]

theorem parsePyInt_of_digits (s : String) (h1 : s.data ≠ [])
    (h2 : s.data.all isDigitChar = true) :
    parsePyInt s = some (parseNatDigits s.data : Int) := by
  have hall : ∀ c ∈ s.data, isDigitChar c = true := by
    intro c hc
    have := List.all_eq_true.mp h2 c hc
    simpa using this
  have hstrip : pyStrip s.data = s.data :=
    pyStrip_of_no_space (fun c hc => isDigitChar_space (hall c hc))
  rcases hd : s.data with _ | ⟨c, rest⟩
  · exact absurd hd h1
  · have hc : isDigitChar c = true := hall c (by rw [hd]; simp)
    obtain ⟨hm, hp, _⟩ := isDigitChar_not_special hc
    have hdig : pyDigits (c :: rest) = true := pyDigits_all (by simp) (hd ▸ h2)
    have hfil : (c :: rest).filter (fun x => !(x == '_')) = c :: rest :=
      filter_underscore_of_digits (hd ▸ h2)
    rw [hd] at hstrip
    simp only [parsePyInt, hd, hstrip, if_neg hm, if_neg hp, hdig, eq_self_iff_true,
      if_true, hfil]

theorem parseNatDigits_natToStr (n : Nat) : parseNatDigits (natToStr n).data = n := by
  by_cases h : n = 0
  · subst h; rfl
  · rw [natToStr_data n h,
      parseNatDigits_ofDigits _ (fun d hd => Nat.digits_lt_base (by norm_num) hd),
      Nat.ofDigits_digits]

theorem parsePyInt_natToStr (n : Nat) : parsePyInt (natToStr n) = some (n : Int) := by
  obtain ⟨h1, h2⟩ := natToStr_data_all_digits n
  rw [parsePyInt_of_digits _ h1 h2, parseNatDigits_natToStr]

theorem natToStr_inj {m n : Nat} (h : natToStr m = natToStr n) : m = n := by
  have := congrArg parsePyInt h
  rw [parsePyInt_natToStr, parsePyInt_natToStr] at this
  exact_mod_cast Option.some.injEq _ _ ▸ this

theorem dotFreeStr_natToStr (n : Nat) : dotFreeStr (natToStr n) = true := by
  rw [dotFreeStr, List.all_eq_true]
  intro c hc
  have := List.all_eq_true.mp (natToStr_data_all_digits n).2 c hc
  have hdig : isDigitChar c = true := by simpa using this
  simpa using (isDigitChar_not_special hdig).2.2

theorem intToStr_natCast (n : Nat) : intToStr (n : Int) = natToStr n := rfl

/-! ### Ranges, sorting, min and max -/

theorem mem_intRangeGo :
    ∀ (n : Nat) (a k : Int), k ∈ intRangeGo n a → a ≤ k ∧ k < a + n := by
  intro n
  induction n with
  | zero => intro a k h; simp [intRangeGo] at h
  | succ n ih =>
    intro a k h
    rcases List.mem_cons.mp h with rfl | h'
    · constructor
      · exact le_rfl
      · push_cast; omega
    · obtain ⟨h1, h2⟩ := ih (a + 1) k h'
      push_cast at h2 ⊢
      omega

theorem sorted_intRangeGo : ∀ (n : Nat) (a : Int), List.Sorted (· ≤ ·) (intRangeGo n a) := by
  intro n
  induction n with
  | zero => intro a; simp [intRangeGo]
  | succ n ih =>
    intro a
    rw [intRangeGo, List.sorted_cons]
    exact ⟨fun b hb => le_trans (by omega) (mem_intRangeGo n (a + 1) b hb).1, ih (a + 1)⟩

theorem insertionSort_intRangeGo (n : Nat) (a : Int) :
    List.insertionSort (· ≤ ·) (intRangeGo n a) = intRangeGo n a :=
  (sorted_intRangeGo n a).insertionSort_eq

theorem foldl_min_of_le : ∀ (xs : List Int) (x : Int), (∀ y ∈ xs, x ≤ y) → xs.foldl min x = x := by
  intro xs
  induction xs with
  | nil => intro x _; rfl
  | cons y ys ih =>
    intro x h
    have hxy : min x y = x := min_eq_left (h y (by simp))
    simp only [List.foldl_cons, hxy]
    exact ih x (fun z hz => h z (by simp [hz]))

theorem pyMin_intRangeGo (n : Nat) (a : Int) : pyMin (intRangeGo (n + 1) a) = some a := by
  rw [intRangeGo, pyMin]
  congr 1
  exact foldl_min_of_le _ a (fun y hy => le_trans (by omega) (mem_intRangeGo n (a + 1) y hy).1)

theorem foldl_max_intRangeGo :
    ∀ (n : Nat) (a x : Int), x ≤ a →
      (intRangeGo n a).foldl max x = if n = 0 then x else a + n - 1 := by
  intro n
  induction n with
  | zero => intro a x _; rfl
  | succ n ih =>
    intro a x hx
    have hxa : max x a = a := max_eq_right hx
    rw [intRangeGo, List.foldl_cons, hxa, ih (a + 1) a (by omega)]
    rcases Nat.eq_zero_or_pos n with rfl | hn
    · simp
    · rw [if_neg (by omega), if_neg (by simp)]
      push_cast
      omega

theorem pyMax_intRangeGo (n : Nat) (a : Int) :
    pyMax (intRangeGo (n + 1) a) = some (a + n) := by
  rw [intRangeGo, pyMax]
  congr 1
  rw [foldl_max_intRangeGo n (a + 1) a (by omega)]
  rcases Nat.eq_zero_or_pos n with rfl | hn
  · simp
  · rw [if_neg (by omega)]
    omega

theorem min_max_cast_lemma (a : Int) (n : Nat) (hn : 0 < n) :
    a + ((n - 1 : Nat) : Int) + 1 = a + n := by
  omega

theorem intRange_eq_go (a : Int) (n : Nat) : intRange a (a + n) = intRangeGo n a := by
  rw [intRange]
  congr 1
  omega

/-! ### `convert_to_list` on an enumeration dict -/

theorem mapParse_enumDict :
    ∀ (vs : List Value) (i : Nat), mapParse (enumDict i vs) = some (intRangeGo vs.length i) := by
  intro vs
  induction vs with
  | nil => intro i; rfl
  | cons v vs' ih =>
    intro i
    rw [enumDict, mapParse, parsePyInt_natToStr, ih (i + 1)]
    simp only [List.length_cons, intRangeGo]
    norm_num

theorem mapLookup_cons_skip (k0 : String) (v0 : Value) (kvs : List (String × Value)) :
    ∀ ks : List Int, (∀ k ∈ ks, ¬(intToStr k = k0)) →
      mapLookup ((k0, v0) :: kvs) ks = mapLookup kvs ks := by
  intro ks
  induction ks with
  | nil => intro; rfl
  | cons k ks' ih =>
    intro h
    rw [mapLookup, mapLookup, ih (fun x hx => h x (by simp [hx])),
      assocGet, if_neg (fun he => h k (by simp) he.symm)]

theorem mapLookup_enumDict :
    ∀ (vs : List Value) (i : Nat), mapLookup (enumDict i vs) (intRangeGo vs.length i) = some vs := by
  intro vs
  induction vs with
  | nil => intro i; rfl
  | cons v vs' ih =>
    intro i
    rw [List.length_cons, intRangeGo, enumDict, mapLookup]
    have hskip : mapLookup ((natToStr i, v) :: enumDict (i + 1) vs') (intRangeGo vs'.length (i + 1)) =
        mapLookup (enumDict (i + 1) vs') (intRangeGo vs'.length (i + 1)) := by
      apply mapLookup_cons_skip
      intro k hk he
      obtain ⟨h1, h2⟩ := mem_intRangeGo _ _ k hk
      have hk0 : 0 ≤ k := le_trans (by positivity) h1
      obtain ⟨m, rfl⟩ := Int.eq_ofNat_of_zero_le hk0
      rw [intToStr_natCast] at he
      have := natToStr_inj he
      omega
    have hcast : ((i : Int) + 1) = ((i + 1 : Nat) : Int) := by push_cast; ring
    rw [hskip, hcast, ih (i + 1)]
    have hget : assocGet ((natToStr i, v) :: enumDict (i + 1) vs') (intToStr (i : Int)) = some v := by
      rw [intToStr_natCast, assocGet, if_pos rfl]
    rw [hget]

theorem enumDict_length :
    ∀ (vs : List Value) (i : Nat), (enumDict i vs).length = vs.length := by
  intro vs
  induction vs with
  | nil => intro; rfl
  | cons v vs' ih => intro i; simp [enumDict, ih (i + 1)]

/-- The key step shared by several results: a dict whose keys are the
decimal renderings of `0, 1, …, n-1` (`n ≥ 1`) is converted by
`convert_to_list` to the list of its values, taken as they are —
`convert_to_list` is not applied to them. -/
theorem convert_to_list_enumDict (vs : List Value) (h : vs ≠ []) :
    convert_to_list (.dict (enumDict 0 vs)) = .ok (.list vs) := by
  have hpos : 0 < vs.length := List.length_pos.mpr h
  have hn : vs.length - 1 + 1 = vs.length := by omega
  have h1 : mapParse (enumDict 0 vs) = some (intRangeGo vs.length 0) := mapParse_enumDict vs 0
  have h2 : List.insertionSort (· ≤ ·) (intRangeGo vs.length (0 : Int)) =
      intRangeGo vs.length 0 := insertionSort_intRangeGo _ _
  have h3 : pyMin (intRangeGo vs.length (0 : Int)) = some 0 := by
    rw [← hn]; exact pyMin_intRangeGo _ _
  have h4 : pyMax (intRangeGo vs.length (0 : Int)) = some (0 + ((vs.length - 1 : Nat) : Int)) := by
    rw [← hn]; exact pyMax_intRangeGo _ _
  have h5 : intRange 0 (0 + ((vs.length - 1 : Nat) : Int) + 1) = intRangeGo vs.length 0 := by
    rw [min_max_cast_lemma 0 vs.length hpos, intRange_eq_go]
  have h6 : mapLookup (enumDict 0 vs) (intRangeGo vs.length 0) = some vs :=
    mapLookup_enumDict vs 0
  simp only [convert_to_list, h1, h2, h3, h4, h5, h6, if_pos, eq_self_iff_true, if_true]

/-! ### Claims settled by direct evaluation -/

/-- C7: NaN-drop at the public interface: `unflatten({"a.b": 1, "a.c": NaN})`
returns `{"a": {"b": 1}}`, with no entry for key `"c"` in the result. -/
theorem claim_C7 :
    unflatten [("a.b", .scalar (.int 1)), ("a.c", .scalar .nan)] =
      .ok (.dict [("a", .dict [("b", .scalar (.int 1))])]) := rfl

/-- C9: `unflatten` is not total: on `{"a": 1, "a.b": 2}` (in that iteration
order) the shorter key's scalar is assigned first, and processing the longer
key then operates on that scalar and raises (`TypeError` in Python, the
error case of the embedding) instead of returning a value. -/
theorem claim_C9 :
    unflatten [("a", .scalar (.int 1)), ("a.b", .scalar (.int 2))] = .error () := rfl

/-- C10: the conversion pass is safe on empty mapping nodes: applied to an
empty mapping it returns it unchanged and raises no error (the `ValueError`
from `min` of an empty key list is caught internally), and in particular
`unflatten({}) = {}`. -/
theorem claim_C10 :
    convert_to_list (.dict []) = .ok (.dict []) ∧ unflatten [] = .ok (.dict []) :=
  ⟨rfl, rfl⟩

/-- C3, counterexample: the claim says the contiguous-numeric-keys
conversion reaches every mapping node of the result, including nodes inside
elements of a converted sequence; but
`unflatten({"x.0.0": "a", "x.0.1": "b"})` returns
`{"x": [{"0": "a", "1": "b"}]}`, whose inner mapping node sits inside a
converted sequence element and still has the contiguous integer keys
`"0", "1"` (as `convertibleKeys` certifies). -/
theorem claim_C3_counterexample :
    unflatten [("x.0.0", .scalar (.str "a")), ("x.0.1", .scalar (.str "b"))] =
      .ok (.dict [("x", .list [.dict [("0", .scalar (.str "a")), ("1", .scalar (.str "b"))]])]) ∧
    convertibleKeys [("0", Value.scalar (.str "a")), ("1", Value.scalar (.str "b"))] = true :=
  ⟨rfl, rfl⟩

/-- C3, amended: the conversion pass descends through mapping nodes that
stay mappings, but a node that does convert returns its values exactly as
reconstructed — `convert_to_list` is not applied inside the elements of a
converted sequence.  Formally: a dict whose keys enumerate `0, …, n-1`
(`n ≥ 1`) converts to the list of its values taken unchanged. -/
theorem claim_C3_amended (vs : List Value) (h : vs ≠ []) :
    convert_to_list (.dict (enumDict 0 vs)) = .ok (.list vs) :=
  convert_to_list_enumDict vs h

/-- Witness for C3's amended theorem at a one-element dict whose single
value is itself a convertible mapping (which the conversion leaves as is). -/
theorem claim_C3_witness :
    convert_to_list (.dict (enumDict 0 [Value.dict [("0", .scalar .null)]])) =
      .ok (.list [Value.dict [("0", .scalar .null)]]) :=
  claim_C3_amended [Value.dict [("0", .scalar .null)]] (by simp)

theorem mapParse_none_of_mem :
    ∀ kvs : List (String × Value), (∃ p ∈ kvs, parsePyInt p.1 = none) → mapParse kvs = none := by
  intro kvs
  induction kvs with
  | nil => rintro ⟨p, hp, _⟩; simp at hp
  | cons q rest ih =>
    rintro ⟨p, hp, hnone⟩
    rcases List.mem_cons.mp hp with rfl | hp'
    · rw [mapParse, hnone]
    · rw [mapParse, ih ⟨p, hp', hnone⟩]
      cases parsePyInt q.1 <;> rfl

theorem convertVals_keys :
    ∀ kvs kvs' : List (String × Value), convertVals kvs = .ok kvs' → keysOf kvs' = keysOf kvs := by
  intro kvs
  induction kvs with
  | nil => intro kvs' h; cases h; rfl
  | cons q rest ih =>
    intro kvs' h
    rw [convertVals] at h
    rcases hq : convert_to_list q.2 with u | v'
    · rw [hq] at h; cases h
    · rw [hq] at h
      rcases hr : convertVals rest with u | rest'
      · rw [hr] at h; cases h
      · rw [hr] at h
        cases h
        have hk := ih rest' hr
        simp only [keysOf] at hk ⊢
        simp [hk]

/-- C8, counterexample: the claim says that whenever some reconstructed
node has a key failing integer parsing, `unflatten` raises no exception
from the conversion pass; but on `{"a.01": 1}` the root node's key `"a"`
fails parsing, and the conversion pass still raises: the child node's key
`"01"` parses to `1`, the range test passes, and the lookup of its
canonical rendering `"1"` raises an uncaught `KeyError`. -/
theorem claim_C8_counterexample :
    unflatten [("a.01", .scalar (.int 1))] = .error () := rfl

/-- C8, amended: a reconstructed mapping node with a key that fails integer
parsing is itself left as a mapping with the same string keys, and no
exception arises from that node's own conversion (the rule falls through
silently there, and an error can come only from converting its values);
the conversion pass as a whole may still raise, from a node whose keys all
parse contiguously but include a non-canonical rendering such as `"01"`.
(The failing key is required to be ASCII: on ASCII strings the parse model
agrees with Python's `int()` exactly, while `int()` additionally accepts
non-ASCII decimal digits that are outside the model.) -/
theorem claim_C8_amended (kvs : List (String × Value))
    (h : ∃ p ∈ kvs, asciiStr p.1 = true ∧ parsePyInt p.1 = none) :
    (∀ r, convert_to_list (.dict kvs) = .ok r →
      ∃ kvs', r = .dict kvs' ∧ keysOf kvs' = keysOf kvs) ∧
    (convert_to_list (.dict kvs) = .error () ↔ convertVals kvs = .error ()) := by
  have hmp : mapParse kvs = none := by
    obtain ⟨p, hpmem, _, hpnone⟩ := h
    exact mapParse_none_of_mem kvs ⟨p, hpmem, hpnone⟩
  constructor
  · intro r hr
    simp only [convert_to_list, hmp] at hr
    rcases hcv : convertVals kvs with u | kvs'
    · rw [hcv] at hr; cases hr
    · rw [hcv] at hr
      cases hr
      exact ⟨kvs', rfl, convertVals_keys kvs kvs' hcv⟩
  · simp only [convert_to_list, hmp]
    rcases hcv : convertVals kvs with u | kvs'
    · cases u
      simp
    · simp

/-- Witness for C8's amended theorem: a node with the unparseable key
`"a"` is left as a mapping with the same keys and its conversion does not
raise. -/
theorem claim_C8_witness :
    (∀ r, convert_to_list (.dict [("a", Value.scalar (.int 1))]) = .ok r →
      ∃ kvs', r = .dict kvs' ∧ keysOf kvs' = keysOf [("a", Value.scalar (.int 1))]) ∧
    (convert_to_list (.dict [("a", Value.scalar (.int 1))]) = .error () ↔
      convertVals [("a", Value.scalar (.int 1))] = .error ()) :=
  claim_C8_amended [("a", Value.scalar (.int 1))]
    ⟨("a", Value.scalar (.int 1)), by simp, rfl, rfl⟩

/-- C4, counterexample: the claim says a reconstructed node is converted to
a sequence exactly when its keys all parse as integers and sort into a
contiguous range; on `{"x.01": "a"}` the reconstructed node `{"01": "a"}`
satisfies that condition (as `convertibleKeys` certifies), yet `unflatten`
raises an uncaught `KeyError` (looking up the canonical rendering `"1"`)
instead of producing a sequence. -/
theorem claim_C4_counterexample :
    unflatten [("x.01", .scalar (.str "a"))] = .error () ∧
    convertibleKeys [("01", Value.scalar (.str "a"))] = true :=
  ⟨rfl, rfl⟩

/-- C4, amended: `convert_to_list` turns a mapping node into a sequence
exactly when all of its keys parse as integers, the sorted parsed keys form
the contiguous range from their minimum to their maximum (the minimum need
not be 0), and each sorted key's canonical decimal rendering is present as
a key; the sequence then takes the values in ascending key order.  If the
range test passes but a rendering is absent (e.g. the key `"01"`), the
conversion raises instead.  In particular
`unflatten({"x.1": "a", "x.2": "b"}) = {"x": ["a", "b"]}` and
`unflatten({"x.0": "a", "x.2": "b"}) = {"x": {"0": "a", "2": "b"}}`. -/
theorem claim_C4_amended :
    (∀ (kvs : List (String × Value)) (vs : List Value),
      convert_to_list (.dict kvs) = .ok (.list vs) ↔
        ∃ ks, mapParse kvs = some ks ∧
          ∃ lo hi, pyMin (List.insertionSort (· ≤ ·) ks) = some lo ∧
            pyMax (List.insertionSort (· ≤ ·) ks) = some hi ∧
            List.insertionSort (· ≤ ·) ks = intRange lo (hi + 1) ∧
            mapLookup kvs (List.insertionSort (· ≤ ·) ks) = some vs) ∧
    unflatten [("x.1", .scalar (.str "a")), ("x.2", .scalar (.str "b"))] =
      .ok (.dict [("x", .list [.scalar (.str "a"), .scalar (.str "b")])]) ∧
    unflatten [("x.0", .scalar (.str "a")), ("x.2", .scalar (.str "b"))] =
      .ok (.dict [("x", .dict [("0", .scalar (.str "a")), ("2", .scalar (.str "b"))])]) := by
  refine ⟨?_, rfl, rfl⟩
  intro kvs vs
  constructor
  · intro h
    rcases hmp : mapParse kvs with _ | ks
    · simp only [convert_to_list, hmp] at h
      rcases hcv : convertVals kvs with u | kvs' <;> rw [hcv] at h <;> cases h
    · simp only [convert_to_list, hmp] at h
      rcases hmin : pyMin (List.insertionSort (· ≤ ·) ks) with _ | lo
      · rw [hmin] at h
        rcases hcv : convertVals kvs with u | kvs' <;> rw [hcv] at h <;> cases h
      · rcases hmax : pyMax (List.insertionSort (· ≤ ·) ks) with _ | hi
        · rw [hmin, hmax] at h
          rcases hcv : convertVals kvs with u | kvs' <;> rw [hcv] at h <;> cases h
        · simp only [hmin, hmax] at h
          by_cases hcond : List.insertionSort (· ≤ ·) ks = intRange lo (hi + 1)
          · rw [if_pos hcond] at h
            rcases hlk : mapLookup kvs (List.insertionSort (· ≤ ·) ks) with _ | vs'
            · rw [hlk] at h; cases h
            · rw [hlk] at h
              cases h
              exact ⟨ks, rfl, lo, hi, hmin, hmax, hcond, hlk⟩
          · rw [if_neg hcond] at h
            rcases hcv : convertVals kvs with u | kvs' <;> rw [hcv] at h <;> cases h
  · rintro ⟨ks, hmp, lo, hi, hmin, hmax, hcond, hlk⟩
    simp only [convert_to_list, hmp, hmin, hmax, if_pos hcond, hlk]

/-! ### Update lemmas for the flat accumulator -/

theorem updEntry_absent :
    ∀ (items : Flat) (k : Option String) (v : Value),
      (∀ e ∈ items, ¬(e.1 = k)) → updEntry items k v = items ++ [(k, v)] := by
  intro items
  induction items with
  | nil => intro k v _; rfl
  | cons e items' ih =>
    intro k v h
    obtain ⟨k', v'⟩ := e
    rw [updEntry, if_neg (h (k', v') (by simp)), ih k v (fun x hx => h x (by simp [hx]))]
    rfl

theorem updAll_nil_left (sub : Flat) : updAll [] sub = updAll [] sub := rfl

theorem updAll_append_batches (A B items : Flat) :
    updAll items (A ++ B) = updAll (updAll items A) B := by
  simp [updAll, List.foldl_append]

theorem updAll_disjoint :
    ∀ (sub items : Flat),
      (∀ e ∈ sub, ∀ e' ∈ items, ¬(e'.1 = e.1)) →
      List.Pairwise (fun a b => ¬(a.1 = b.1)) sub →
      updAll items sub = items ++ sub := by
  intro sub
  induction sub with
  | nil => intro items _ _; simp [updAll]
  | cons e sub' ih =>
    intro items hdisj hpw
    have h1 : updEntry items e.1 e.2 = items ++ [e] := by
      rw [updEntry_absent items e.1 e.2 (fun x hx hk => hdisj e (by simp) x hx hk)]
    have hstep : updAll items (e :: sub') = updAll (items ++ [e]) sub' := by
      rw [updAll, List.foldl_cons, h1]; rfl
    rw [hstep, ih (items ++ [e]) ?_ (List.Pairwise.sublist (List.sublist_cons_self e sub') hpw)]
    · simp
    · intro x hx e' he'
      rcases List.mem_append.mp he' with h' | h'
      · exact hdisj x (by simp [hx]) e' h'
      · have : e' = e := by simpa using h'
        subst this
        exact (List.pairwise_cons.mp hpw).1 x hx

/-! ### Structure of the leaf entries -/

mutual
theorem entriesV_count : ∀ v : Value, (entriesV v).length = leafCount v
  | .scalar s => rfl
  | .list xs => by rw [entriesV, leafCount]; exact entriesL_count 0 xs
  | .dict kvs => by rw [entriesV, leafCount]; exact entriesD_count kvs

theorem entriesL_count : ∀ (i : Nat) (xs : List Value), (entriesL i xs).length = leafCountL xs
  | _, [] => rfl
  | i, v :: rest => by
    rw [entriesL, leafCountL, List.length_append, List.length_map,
      entriesV_count v, entriesL_count (i + 1) rest]

theorem entriesD_count : ∀ kvs : List (String × Value), (entriesD kvs).length = leafCountD kvs
  | [] => rfl
  | (k, v) :: rest => by
    rw [entriesD, leafCountD, List.length_append, List.length_map,
      entriesV_count v, entriesD_count rest]
end

mutual
theorem entriesV_dotfree :
    ∀ v : Value, dotFreeKeys v = true →
      ∀ e ∈ entriesV v, ∀ g ∈ e.1, dotFreeStr g = true
  | .scalar s => by
    intro _ e he g hg
    rw [entriesV] at he
    simp at he
    subst he
    simp at hg
  | .list xs => by
    intro h e he g hg
    rw [entriesV] at he
    rw [dotFreeKeys] at h
    exact entriesL_dotfree xs 0 h e he g hg
  | .dict kvs => by
    intro h e he g hg
    rw [entriesV] at he
    rw [dotFreeKeys] at h
    exact entriesD_dotfree kvs h e he g hg

theorem entriesL_dotfree :
    ∀ (xs : List Value) (i : Nat), dotFreeKeysL xs = true →
      ∀ e ∈ entriesL i xs, ∀ g ∈ e.1, dotFreeStr g = true
  | [], _ => by intro _ e he; rw [entriesL] at he; simp at he
  | v :: rest, i => by
    intro h e he g hg
    rw [dotFreeKeysL, Bool.and_eq_true] at h
    rw [entriesL] at he
    rcases List.mem_append.mp he with h' | h'
    · obtain ⟨e0, he0, rfl⟩ := List.mem_map.mp h'
      rcases List.mem_cons.mp hg with rfl | hg'
      · exact dotFreeStr_natToStr i
      · exact entriesV_dotfree v h.1 e0 he0 g hg'
    · exact entriesL_dotfree rest (i + 1) h.2 e h' g hg

theorem entriesD_dotfree :
    ∀ kvs : List (String × Value), dotFreeKeysD kvs = true →
      ∀ e ∈ entriesD kvs, ∀ g ∈ e.1, dotFreeStr g = true
  | [] => by intro _ e he; rw [entriesD] at he; simp at he
  | (k, v) :: rest => by
    intro h e he g hg
    rw [dotFreeKeysD, Bool.and_eq_true, Bool.and_eq_true] at h
    rw [entriesD] at he
    rcases List.mem_append.mp he with h' | h'
    · obtain ⟨e0, he0, rfl⟩ := List.mem_map.mp h'
      rcases List.mem_cons.mp hg with rfl | hg'
      · exact h.1.1
      · exact entriesV_dotfree v h.1.2 e0 he0 g hg'
    · exact entriesD_dotfree rest h.2 e h' g hg
end

theorem entriesL_shape :
    ∀ (xs : List Value) (i : Nat) (e : List String × Value), e ∈ entriesL i xs →
      ∃ j π, e.1 = natToStr j :: π ∧ i ≤ j ∧ j < i + xs.length := by
  intro xs
  induction xs with
  | nil => intro i e he; rw [entriesL] at he; simp at he
  | cons v rest ih =>
    intro i e he
    rw [entriesL] at he
    rcases List.mem_append.mp he with h' | h'
    · obtain ⟨e0, _, rfl⟩ := List.mem_map.mp h'
      exact ⟨i, e0.1, rfl, le_rfl, by simp⟩
    · obtain ⟨j, π, h1, h2, h3⟩ := ih (i + 1) e h'
      exact ⟨j, π, h1, by omega, by simp at h3 ⊢; omega⟩

theorem entriesD_shape :
    ∀ (kvs : List (String × Value)) (e : List String × Value), e ∈ entriesD kvs →
      ∃ k π, e.1 = k :: π ∧ k ∈ keysOf kvs := by
  intro kvs
  induction kvs with
  | nil => intro e he; rw [entriesD] at he; simp at he
  | cons q rest ih =>
    obtain ⟨k, v⟩ := q
    intro e he
    rw [entriesD] at he
    rcases List.mem_append.mp he with h' | h'
    · obtain ⟨e0, _, rfl⟩ := List.mem_map.mp h'
      exact ⟨k, e0.1, rfl, by simp [keysOf]⟩
    · obtain ⟨k', π, h1, h2⟩ := ih e h'
      exact ⟨k', π, h1, by simp [keysOf] at h2 ⊢; exact Or.inr h2⟩

theorem keyAbsent_forall :
    ∀ (l : List String) (k : String), keyAbsent k l = true → ∀ k' ∈ l, ¬(k' = k) := by
  intro l
  induction l with
  | nil => intro k _ k' hk'; simp at hk'
  | cons a l' ih =>
    intro k h k' hk'
    rw [keyAbsent, Bool.and_eq_true] at h
    rcases List.mem_cons.mp hk' with rfl | hk''
    · simpa using h.1
    · exact ih k h.2 k' hk''

mutual
theorem entriesV_pairwise :
    ∀ v : Value, nodupKeys v = true →
      List.Pairwise (fun a b => ¬(a.1 = b.1)) (entriesV v)
  | .scalar s => by intro _; rw [entriesV]; simp
  | .list xs => by
    intro h
    rw [entriesV]
    rw [nodupKeys] at h
    exact entriesL_pairwise xs 0 h
  | .dict kvs => by
    intro h
    rw [entriesV]
    rw [nodupKeys] at h
    exact entriesD_pairwise kvs h

theorem entriesL_pairwise :
    ∀ (xs : List Value) (i : Nat), nodupKeysL xs = true →
      List.Pairwise (fun a b => ¬(a.1 = b.1)) (entriesL i xs)
  | [], _ => by intro _; rw [entriesL]; simp
  | v :: rest, i => by
    intro h
    rw [nodupKeysL, Bool.and_eq_true] at h
    rw [entriesL, List.pairwise_append]
    refine ⟨?_, entriesL_pairwise rest (i + 1) h.2, ?_⟩
    · rw [List.pairwise_map]
      exact (entriesV_pairwise v h.1).imp (fun hne he => hne (by simpa using he))
    · intro a ha b hb
      obtain ⟨a0, _, rfl⟩ := List.mem_map.mp ha
      obtain ⟨j, π, hb1, hb2, _⟩ := entriesL_shape rest (i + 1) b hb
      intro he
      rw [hb1] at he
      have : natToStr i = natToStr j := by simpa using (congrArg (fun l => List.headD l "") he)
      have := natToStr_inj this
      omega

theorem entriesD_pairwise :
    ∀ kvs : List (String × Value), nodupKeysD kvs = true →
      List.Pairwise (fun a b => ¬(a.1 = b.1)) (entriesD kvs)
  | [] => by intro _; rw [entriesD]; simp
  | (k, v) :: rest => by
    intro h
    rw [nodupKeysD, Bool.and_eq_true, Bool.and_eq_true] at h
    rw [entriesD, List.pairwise_append]
    refine ⟨?_, entriesD_pairwise rest h.2, ?_⟩
    · rw [List.pairwise_map]
      exact (entriesV_pairwise v h.1.2).imp (fun hne he => hne (by simpa using he))
    · intro a ha b hb
      obtain ⟨a0, _, rfl⟩ := List.mem_map.mp ha
      obtain ⟨k', π, hb1, hb2⟩ := entriesD_shape rest b hb
      intro he
      rw [hb1] at he
      have hk : k = k' := by simpa using (congrArg (fun l => List.headD l "") he)
      exact keyAbsent_forall (keysOf rest) k h.1.1 k' hb2 hk.symm
end

/-! ### `flatten` computes the joined leaf paths -/

theorem segsToKey_of_ne_nil : ∀ {l : List String}, l ≠ [] → segsToKey l = some (joinDot l) := by
  intro l h
  match l with
  | [] => exact absurd rfl h
  | a :: l' => rfl

theorem mapped_key_inj (pre : List String) (hpre : ∀ g ∈ pre, dotFreeStr g = true)
    {p1 p2 : List String} (h1 : p1 ≠ []) (h2 : p2 ≠ [])
    (d1 : ∀ g ∈ p1, dotFreeStr g = true) (d2 : ∀ g ∈ p2, dotFreeStr g = true)
    (he : segsToKey (pre ++ p1) = segsToKey (pre ++ p2)) : p1 = p2 := by
  have hn1 : pre ++ p1 ≠ [] := by simp [h1]
  have hn2 : pre ++ p2 ≠ [] := by simp [h2]
  rw [segsToKey_of_ne_nil hn1, segsToKey_of_ne_nil hn2] at he
  have hj : joinDot (pre ++ p1) = joinDot (pre ++ p2) := by
    injection he
  have hall1 : ∀ g ∈ pre ++ p1, dotFreeStr g = true := by
    intro g hg
    rcases List.mem_append.mp hg with h' | h'
    · exact hpre g h'
    · exact d1 g h'
  have hall2 : ∀ g ∈ pre ++ p2, dotFreeStr g = true := by
    intro g hg
    rcases List.mem_append.mp hg with h' | h'
    · exact hpre g h'
    · exact d2 g h'
  exact List.append_cancel_left (joinDot_inj hn1 hn2 hall1 hall2 hj)

theorem mapped_pairwise (pre : List String) (hpre : ∀ g ∈ pre, dotFreeStr g = true)
    (es : List (List String × Value))
    (hpw : List.Pairwise (fun a b => ¬(a.1 = b.1)) es)
    (hne : ∀ e ∈ es, e.1 ≠ [])
    (hdf : ∀ e ∈ es, ∀ g ∈ e.1, dotFreeStr g = true) :
    List.Pairwise (fun a b => ¬(a.1 = b.1))
      (es.map (fun e => (segsToKey (pre ++ e.1), e.2))) := by
  rw [List.pairwise_map]
  refine List.Pairwise.imp_of_mem ?_ hpw
  intro a b ha hb hne' he
  exact hne' (mapped_key_inj pre hpre (hne a ha) (hne b hb) (hdf a ha) (hdf b hb) he)

mutual
theorem flatten_entriesV :
    ∀ (v : Value) (pre : List String),
      dotFreeKeys v = true → nodupKeys v = true →
      (∀ g ∈ pre, dotFreeStr g = true) →
      flatten "." v (segsToKey pre) =
        (entriesV v).map (fun e => (segsToKey (pre ++ e.1), e.2))
  | .scalar s, pre => by
    intro _ _ _
    rw [flatten, entriesV]
    simp
  | .list xs, pre => by
    intro hd hn hpre
    rw [dotFreeKeys] at hd
    rw [nodupKeys] at hn
    rw [flatten, entriesV, flatten_entriesL xs 0 pre [] hd hn hpre]
    have hmap := mapped_pairwise pre hpre (entriesL 0 xs) (entriesL_pairwise xs 0 hn)
      (fun e he => by obtain ⟨j, π, h1, _, _⟩ := entriesL_shape xs 0 e he; simp [h1])
      (entriesL_dotfree xs 0 hd)
    have := updAll_disjoint ((entriesL 0 xs).map (fun e => (segsToKey (pre ++ e.1), e.2))) []
      (by intro e _ e' he'; simp at he') hmap
    rw [this]
    simp
  | .dict kvs, pre => by
    intro hd hn hpre
    rw [dotFreeKeys] at hd
    rw [nodupKeys] at hn
    rw [flatten, entriesV, flatten_entriesD kvs pre [] hd hn hpre]
    have hmap := mapped_pairwise pre hpre (entriesD kvs) (entriesD_pairwise kvs hn)
      (fun e he => by obtain ⟨k, π, h1, _⟩ := entriesD_shape kvs e he; simp [h1])
      (entriesD_dotfree kvs hd)
    have := updAll_disjoint ((entriesD kvs).map (fun e => (segsToKey (pre ++ e.1), e.2))) []
      (by intro e _ e' he'; simp at he') hmap
    rw [this]
    simp

theorem flatten_entriesL :
    ∀ (xs : List Value) (i : Nat) (pre : List String) (items : Flat),
      dotFreeKeysL xs = true → nodupKeysL xs = true →
      (∀ g ∈ pre, dotFreeStr g = true) →
      flattenList "." xs (segsToKey pre) i items =
        updAll items ((entriesL i xs).map (fun e => (segsToKey (pre ++ e.1), e.2)))
  | [], i, pre, items => by
    intro _ _ _
    rw [flattenList, entriesL]
    simp [updAll]
  | v :: rest, i, pre, items => by
    intro hd hn hpre
    rw [dotFreeKeysL, Bool.and_eq_true] at hd
    rw [nodupKeysL, Bool.and_eq_true] at hn
    have hpre' : ∀ g ∈ pre ++ [natToStr i], dotFreeStr g = true := by
      intro g hg
      rcases List.mem_append.mp hg with h' | h'
      · exact hpre g h'
      · simp at h'; subst h'; exact dotFreeStr_natToStr i
    have hkey : (some (childKey "." (segsToKey pre) (natToStr i)) : Option String) =
        segsToKey (pre ++ [natToStr i]) := by
      rw [childKey_segsToKey pre (natToStr i), segsToKey_of_ne_nil (by simp)]
    rw [flattenList, hkey, flatten_entriesV v (pre ++ [natToStr i]) hd.1 hn.1 hpre',
      flatten_entriesL rest (i + 1) pre _ hd.2 hn.2 hpre, entriesL, List.map_append,
      updAll_append_batches]
    congr 2
    rw [List.map_map]
    apply List.map_congr_left
    intro e he
    simp [List.append_assoc]

theorem flatten_entriesD :
    ∀ (kvs : List (String × Value)) (pre : List String) (items : Flat),
      dotFreeKeysD kvs = true → nodupKeysD kvs = true →
      (∀ g ∈ pre, dotFreeStr g = true) →
      flattenDict "." kvs (segsToKey pre) items =
        updAll items ((entriesD kvs).map (fun e => (segsToKey (pre ++ e.1), e.2)))
  | [], pre, items => by
    intro _ _ _
    rw [flattenDict, entriesD]
    simp [updAll]
  | (k, v) :: rest, pre, items => by
    intro hd hn hpre
    rw [dotFreeKeysD, Bool.and_eq_true, Bool.and_eq_true] at hd
    rw [nodupKeysD, Bool.and_eq_true, Bool.and_eq_true] at hn
    have hpre' : ∀ g ∈ pre ++ [k], dotFreeStr g = true := by
      intro g hg
      rcases List.mem_append.mp hg with h' | h'
      · exact hpre g h'
      · simp at h'; subst h'; exact hd.1.1
    have hkey : (some (childKey "." (segsToKey pre) k) : Option String) =
        segsToKey (pre ++ [k]) := by
      rw [childKey_segsToKey pre k, segsToKey_of_ne_nil (by simp)]
    rw [flattenDict, hkey, flatten_entriesV v (pre ++ [k]) hd.1.2 hn.1.2 hpre',
      flatten_entriesD rest pre _ hd.2 hn.2 hpre, entriesD, List.map_append,
      updAll_append_batches]
    congr 2
    rw [List.map_map]
    apply List.map_congr_left
    intro e he
    simp [List.append_assoc]
end

/-- C6: for every value whose mapping keys contain no delimiter (and, as
for every real Python dict, no duplicate keys), `flatten` produces exactly
one entry per scalar leaf, keyed by the joined root-to-leaf path, and the
number of entries equals the number of scalar leaves. -/
theorem claim_C6 (v : Value) (hd : dotFreeKeys v = true) (hn : nodupKeys v = true) :
    flattenTop v = (entriesV v).map (fun e => (segsToKey e.1, e.2)) ∧
    (flattenTop v).length = leafCount v := by
  have h : flattenTop v = (entriesV v).map (fun e => (segsToKey e.1, e.2)) :=
    flatten_entriesV v [] hd hn (by intro g hg; simp at hg)
  exact ⟨h, by rw [h, List.length_map, entriesV_count]⟩

/-- Witness for C6 on `{"a": 1, "f": [null, true]}`. -/
theorem claim_C6_witness :
    (flattenTop (.dict [("a", .scalar (.int 1)),
        ("f", .list [.scalar .null, .scalar (.bool true)])])).length =
      leafCount (.dict [("a", .scalar (.int 1)),
        ("f", .list [.scalar .null, .scalar (.bool true)])]) :=
  (claim_C6 (.dict [("a", .scalar (.int 1)),
    ("f", .list [.scalar .null, .scalar (.bool true)])]) rfl rfl).2

/-! ### Re-basing `flatten` under a parent key (C5) -/

theorem withPre_inj (p : String) :
    ∀ a b : Option String, withPre p a = withPre p b → a = b := by
  have hdotlen : (".").length = 1 := rfl
  have hlen : ∀ r : String, (p ++ "." ++ r).length = p.length + 1 + r.length := by
    intro r
    simp [String.length_append, hdotlen]
  intro a b h
  match a, b with
  | none, none => rfl
  | none, some r => 
    exfalso
    have : p = p ++ "." ++ r := by rw [withPre, withPre] at h; injection h
    have := congrArg String.length this
    rw [hlen r] at this
    omega
  | some r, none =>
    exfalso
    have : p ++ "." ++ r = p := by rw [withPre, withPre] at h; injection h
    have := congrArg String.length this
    rw [hlen r] at this
    omega
  | some r1, some r2 =>
    have h1 : p ++ "." ++ r1 = p ++ "." ++ r2 := by rw [withPre, withPre] at h; injection h
    have h2 := congrArg String.data h1
    simp only [String.data_append] at h2
    have h3 := List.append_cancel_left h2
    have h4 : String.mk r1.data = String.mk r2.data := by rw [h3]
    simpa using h4

theorem updEntry_map (F : Option String → Option String)
    (hF : ∀ a b : Option String, F a = F b → a = b) :
    ∀ (items : Flat) (k : Option String) (w : Value),
      updEntry (items.map (fun e => (F e.1, e.2))) (F k) w =
        (updEntry items k w).map (fun e => (F e.1, e.2)) := by
  intro items
  induction items with
  | nil => intro k w; rfl
  | cons e items' ih =>
    intro k w
    obtain ⟨k', v'⟩ := e
    by_cases hk : k' = k
    · subst hk
      simp [updEntry]
    · have hFk : ¬(F k' = F k) := fun he => hk (hF k' k he)
      simp only [List.map_cons, updEntry, if_neg hk, if_neg hFk, List.map_cons, ih k w]

theorem updAll_map (F : Option String → Option String)
    (hF : ∀ a b : Option String, F a = F b → a = b) :
    ∀ (sub items : Flat),
      updAll (items.map (fun e => (F e.1, e.2))) (sub.map (fun e => (F e.1, e.2))) =
        (updAll items sub).map (fun e => (F e.1, e.2)) := by
  intro sub
  induction sub with
  | nil => intro items; rfl
  | cons e sub' ih =>
    intro items
    have h1 : updAll (items.map (fun e => (F e.1, e.2))) ((e :: sub').map (fun e => (F e.1, e.2))) =
        updAll (updEntry (items.map (fun e => (F e.1, e.2))) (F e.1) e.2)
          (sub'.map (fun e => (F e.1, e.2))) := rfl
    rw [h1, updEntry_map F hF items e.1 e.2, ih (updEntry items e.1 e.2)]
    rfl

mutual
theorem flatten_rebase :
    ∀ (v : Value) (p : String),
      flatten "." v (some p) =
        (flatten "." v none).map (fun e => (withPre p e.1, e.2))
  | .scalar s, p => by
    rw [flatten, flatten]
    rfl
  | .list xs, p => by
    rw [flatten, flatten]
    have h := flattenList_rebase xs 0 p []
    simpa using h
  | .dict kvs, p => by
    rw [flatten, flatten]
    have h := flattenDict_rebase kvs p []
    simpa using h

theorem flattenList_rebase :
    ∀ (xs : List Value) (i : Nat) (p : String) (items : Flat),
      flattenList "." xs (some p) i (items.map (fun e => (withPre p e.1, e.2))) =
        (flattenList "." xs none i items).map (fun e => (withPre p e.1, e.2))
  | [], i, p, items => by rw [flattenList, flattenList]
  | v :: rest, i, p, items => by
    rw [flattenList, flattenList]
    have hchild : flatten "." v (some (childKey "." (some p) (natToStr i))) =
        (flatten "." v (some (childKey "." none (natToStr i)))).map
          (fun e => (withPre p e.1, e.2)) := by
      show flatten "." v (some (p ++ "." ++ natToStr i)) =
        (flatten "." v (some (natToStr i))).map (fun e => (withPre p e.1, e.2))
      rw [flatten_rebase v (p ++ "." ++ natToStr i), flatten_rebase v (natToStr i),
        List.map_map]
      apply List.map_congr_left
      intro e _
      cases he1 : e.1 with
      | none => simp [Function.comp, he1, withPre]
      | some r => simp [Function.comp, he1, withPre, String.append_assoc]
    rw [hchild, updAll_map (withPre p) (withPre_inj p),
      flattenList_rebase rest (i + 1) p (updAll items (flatten "." v
        (some (childKey "." none (natToStr i)))))]

theorem flattenDict_rebase :
    ∀ (kvs : List (String × Value)) (p : String) (items : Flat),
      flattenDict "." kvs (some p) (items.map (fun e => (withPre p e.1, e.2))) =
        (flattenDict "." kvs none items).map (fun e => (withPre p e.1, e.2))
  | [], p, items => by rw [flattenDict, flattenDict]
  | (k, v) :: rest, p, items => by
    rw [flattenDict, flattenDict]
    have hchild : flatten "." v (some (childKey "." (some p) k)) =
        (flatten "." v (some (childKey "." none k))).map
          (fun e => (withPre p e.1, e.2)) := by
      show flatten "." v (some (p ++ "." ++ k)) =
        (flatten "." v (some k)).map (fun e => (withPre p e.1, e.2))
      rw [flatten_rebase v (p ++ "." ++ k), flatten_rebase v k, List.map_map]
      apply List.map_congr_left
      intro e _
      cases he1 : e.1 with
      | none => simp [Function.comp, he1, withPre]
      | some r => simp [Function.comp, he1, withPre, String.append_assoc]
    rw [hchild, updAll_map (withPre p) (withPre_inj p),
      flattenDict_rebase rest p (updAll items (flatten "." v (some (childKey "." none k))))]
end

/-- C5: flattening under a parent key `p` produces exactly the flat entries
of flattening at the root, each key prefixed with `p` and the delimiter
(`withPre`); keys for sequence elements use the zero-based position in
decimal, as the end-to-end example
`flatten({"a": 1, "b": {"c": 2, "d": {"e": 3}}, "f": [4, 5]})
 = {"a": 1, "b.c": 2, "b.d.e": 3, "f.0": 4, "f.1": 5}` shows. -/
theorem claim_C5 :
    (∀ (v : Value) (p : String),
      flatten "." v (some p) =
        (flatten "." v none).map (fun e => (withPre p e.1, e.2))) ∧
    flattenTop (.dict [("a", .scalar (.int 1)),
      ("b", .dict [("c", .scalar (.int 2)), ("d", .dict [("e", .scalar (.int 3))])]),
      ("f", .list [.scalar (.int 4), .scalar (.int 5)])]) =
    [(some "a", .scalar (.int 1)), (some "b.c", .scalar (.int 2)),
     (some "b.d.e", .scalar (.int 3)), (some "f.0", .scalar (.int 4)),
     (some "f.1", .scalar (.int 5))] :=
  ⟨flatten_rebase, rfl⟩

/-! ### Association-list lemmas for the reconstruction -/

theorem assocGet_set_self :
    ∀ (kvs : List (String × Value)) (k : String) (w : Value),
      assocGet (assocSet kvs k w) k = some w := by
  intro kvs
  induction kvs with
  | nil => intro k w; simp [assocSet, assocGet]
  | cons e rest ih =>
    intro k w
    obtain ⟨k', v'⟩ := e
    by_cases hk : k' = k
    · subst hk
      simp [assocSet, assocGet]
    · simp only [assocSet, if_neg hk, assocGet, if_neg hk, ih]

theorem assocSet_assocSet :
    ∀ (kvs : List (String × Value)) (k : String) (w1 w2 : Value),
      assocSet (assocSet kvs k w1) k w2 = assocSet kvs k w2 := by
  intro kvs
  induction kvs with
  | nil => intro k w1 w2; simp [assocSet]
  | cons e rest ih =>
    intro k w1 w2
    obtain ⟨k', v'⟩ := e
    by_cases hk : k' = k
    · subst hk
      simp [assocSet]
    · simp only [assocSet, if_neg hk, ih]

theorem assocSet_get_self :
    ∀ (kvs : List (String × Value)) (k : String) (w : Value),
      assocGet kvs k = some w → assocSet kvs k w = kvs := by
  intro kvs
  induction kvs with
  | nil => intro k w h; simp [assocGet] at h
  | cons e rest ih =>
    intro k w h
    obtain ⟨k', v'⟩ := e
    by_cases hk : k' = k
    · subst hk
      rw [assocGet, if_pos rfl] at h
      injection h with h
      rw [assocSet, if_pos rfl, h]
    · rw [assocGet, if_neg hk] at h
      rw [assocSet, if_neg hk, ih k w h]

theorem assocSet_absent :
    ∀ (kvs : List (String × Value)) (k : String) (w : Value),
      assocGet kvs k = none → assocSet kvs k w = kvs ++ [(k, w)] := by
  intro kvs
  induction kvs with
  | nil => intro k w _; rfl
  | cons e rest ih =>
    intro k w h
    obtain ⟨k', v'⟩ := e
    by_cases hk : k' = k
    · subst hk
      rw [assocGet, if_pos rfl] at h
      cases h
    · rw [assocGet, if_neg hk] at h
      rw [assocSet, if_neg hk, ih k w h]
      rfl

theorem assocGet_append :
    ∀ (A B : List (String × Value)) (k : String),
      assocGet (A ++ B) k =
        match assocGet A k with
        | some w => some w
        | none => assocGet B k := by
  intro A
  induction A with
  | nil => intro B k; rfl
  | cons e A' ih =>
    intro B k
    obtain ⟨k', v'⟩ := e
    by_cases hk : k' = k
    · subst hk
      simp [assocGet]
    · simp only [List.cons_append, assocGet, if_neg hk, List.append_eq, ih]

theorem getLastD_irrel :
    ∀ (l : List String), l ≠ [] → ∀ d1 d2 : String, l.getLastD d1 = l.getLastD d2 := by
  intro l
  induction l with
  | nil => intro h; exact absurd rfl h
  | cons a l' ih =>
    intro _ d1 d2
    match l' with
    | [] => rfl
    | b :: l'' =>
      rw [List.getLastD_cons]
      conv_rhs => rw [List.getLastD_cons]

theorem walkAssign_dict_shape :
    ∀ (parts : List String) (kvs : List (String × Value)) (last : String) (skip : Bool)
      (w r : Value),
      walkAssign (.dict kvs) parts last skip w = .ok r → ∃ kvs', r = .dict kvs' := by
  intro parts
  match parts with
  | [] =>
    intro kvs last skip w r h
    rw [walkAssign] at h
    by_cases hs : skip = true
    · rw [if_pos hs] at h
      injection h with h
      exact ⟨kvs, h.symm⟩
    · rw [if_neg hs] at h
      injection h with h
      exact ⟨assocSet kvs last w, h.symm⟩
  | p :: rest =>
    intro kvs last skip w r h
    rw [walkAssign] at h
    rcases hget : assocGet kvs p with _ | sub
    · simp only [hget] at h
      rcases hw : walkAssign (.dict []) rest last skip w with u | sub'
      · rw [hw] at h; cases h
      · rw [hw] at h
        injection h with h
        exact ⟨assocSet kvs p sub', h.symm⟩
    · simp only [hget] at h
      rcases hw : walkAssign sub rest last skip w with u | sub'
      · rw [hw] at h; cases h
      · rw [hw] at h
        injection h with h
        exact ⟨assocSet kvs p sub', h.symm⟩

theorem buildSegs_append :
    ∀ (A B : List (List String × Value)) (acc : Value),
      buildSegs (A ++ B) acc =
        match buildSegs A acc with
        | .ok acc' => buildSegs B acc'
        | .error u => .error u := by
  intro A
  induction A with
  | nil => intro B acc; rfl
  | cons e A' ih =>
    intro B acc
    rw [List.cons_append, buildSegs, buildSegs]
    rcases hw : walkEntry acc e with u | acc'
    · rfl
    · exact ih B acc'

theorem buildNested_eq_buildSegs :
    ∀ (es : List (List String × Value)) (acc : Value),
      (∀ e ∈ es, e.1 ≠ [] ∧ ∀ g ∈ e.1, dotFreeStr g = true) →
      buildNested (es.map (fun e => (joinDot e.1, e.2))) acc = buildSegs es acc := by
  intro es
  induction es with
  | nil => intro acc _; rfl
  | cons e es' ih =>
    intro acc h
    obtain ⟨h1, h2⟩ := h e (by simp)
    have hsplit : pySplit (joinDot e.1) = e.1 := pySplit_joinDot e.1 h1 h2
    rw [List.map_cons, buildNested, buildSegs]
    have hpe : processEntry acc (joinDot e.1, e.2) = walkEntry acc e := by
      rw [processEntry, walkEntry]
      simp only [hsplit]
    rw [hpe]
    rcases hw : walkEntry acc e with u | acc'
    · rfl
    · exact ih acc' (fun x hx => h x (by simp [hx]))

theorem walkEntry_cons_key (kvs : List (String × Value)) (k : String)
    (π : List String) (hπ : π ≠ []) (val : Value) :
    walkEntry (.dict kvs) (k :: π, val) =
      match assocGet kvs k with
      | some sub =>
        match walkAssign sub π.dropLast (π.getLastD "") (isNanValue val) val with
        | .ok sub' => .ok (.dict (assocSet kvs k sub'))
        | .error u => .error u
      | none =>
        match walkAssign (.dict []) π.dropLast (π.getLastD "") (isNanValue val) val with
        | .ok sub' => .ok (.dict (assocSet kvs k sub'))
        | .error u => .error u := by
  match π with
  | [] => exact absurd rfl hπ
  | b :: π'' =>
    rw [walkEntry]
    have hdrop : ((k :: b :: π'').dropLast) = k :: (b :: π'').dropLast := rfl
    have hlast : ((k :: b :: π'').getLastD "") = (b :: π'').getLastD "" := by
      rw [List.getLastD_cons]
      exact getLastD_irrel (b :: π'') (by simp) k ""
    rw [hdrop, hlast]
    rfl

theorem buildSegs_under_key :
    ∀ (es : List (List String × Value)) (k : String) (kvs sub : List (String × Value)),
      assocGet kvs k = some (.dict sub) →
      (∀ e ∈ es, e.1 ≠ []) →
      buildSegs (es.map (fun e => (k :: e.1, e.2))) (.dict kvs) =
        match buildSegs es (.dict sub) with
        | .ok r => .ok (.dict (assocSet kvs k r))
        | .error u => .error u := by
  intro es
  induction es with
  | nil =>
    intro k kvs sub hget _
    rw [List.map_nil, buildSegs, buildSegs]
    show Except.ok (Value.dict kvs) = Except.ok (Value.dict (assocSet kvs k (Value.dict sub)))
    rw [assocSet_get_self kvs k (.dict sub) hget]
  | cons e es' ih =>
    intro k kvs sub hget hne
    obtain ⟨π, val⟩ := e
    have hπ : π ≠ [] := hne (π, val) (by simp)
    rw [List.map_cons, buildSegs, buildSegs,
      walkEntry_cons_key kvs k π hπ val]
    simp only [hget]
    have hwe : walkAssign (.dict sub) π.dropLast (π.getLastD "") (isNanValue val) val =
        walkEntry (.dict sub) (π, val) := rfl
    rcases hw : walkAssign (.dict sub) π.dropLast (π.getLastD "") (isNanValue val) val
      with u | r1
    · rw [← hwe, hw]
    · obtain ⟨sub1, rfl⟩ := walkAssign_dict_shape π.dropLast sub (π.getLastD "")
        (isNanValue val) val r1 hw
      rw [← hwe, hw]
      show buildSegs (List.map (fun e => (k :: e.1, e.2)) es')
          (.dict (assocSet kvs k (.dict sub1))) =
        match buildSegs es' (.dict sub1) with
        | .ok sub' => .ok (.dict (assocSet kvs k sub'))
        | .error u => .error u
      rw [ih k (assocSet kvs k (.dict sub1)) sub1 (assocGet_set_self kvs k (.dict sub1))
        (fun x hx => hne x (by simp [hx]))]
      rcases hb : buildSegs es' (.dict sub1) with u | r2
      · simp only [hb]
      · simp only [hb, assocSet_assocSet]

theorem buildSegs_new_key :
    ∀ (es : List (List String × Value)) (k : String) (kvs : List (String × Value)),
      assocGet kvs k = none → es ≠ [] → (∀ e ∈ es, e.1 ≠ []) →
      buildSegs (es.map (fun e => (k :: e.1, e.2))) (.dict kvs) =
        match buildSegs es (.dict []) with
        | .ok r => .ok (.dict (assocSet kvs k r))
        | .error u => .error u := by
  intro es
  match es with
  | [] => intro k kvs _ h; exact absurd rfl h
  | e :: es' =>
    intro k kvs hget _ hne
    obtain ⟨π, val⟩ := e
    have hπ : π ≠ [] := hne (π, val) (by simp)
    rw [List.map_cons, buildSegs, buildSegs,
      walkEntry_cons_key kvs k π hπ val]
    simp only [hget]
    have hwe : walkAssign (.dict []) π.dropLast (π.getLastD "") (isNanValue val) val =
        walkEntry (.dict []) (π, val) := rfl
    rcases hw : walkAssign (.dict []) π.dropLast (π.getLastD "") (isNanValue val) val
      with u | r1
    · rw [← hwe, hw]
    · obtain ⟨sub1, rfl⟩ := walkAssign_dict_shape π.dropLast [] (π.getLastD "")
        (isNanValue val) val r1 hw
      rw [← hwe, hw]
      show buildSegs (List.map (fun e => (k :: e.1, e.2)) es')
          (.dict (assocSet kvs k (.dict sub1))) =
        match buildSegs es' (.dict sub1) with
        | .ok sub' => .ok (.dict (assocSet kvs k sub'))
        | .error u => .error u
      rw [buildSegs_under_key es' k (assocSet kvs k (.dict sub1)) sub1
        (assocGet_set_self kvs k (.dict sub1)) (fun x hx => hne x (by simp [hx]))]
      rcases hb : buildSegs es' (.dict sub1) with u | r2
      · simp only [hb]
      · simp only [hb, assocSet_assocSet]

mutual
theorem entriesV_ne_nil : ∀ v : Value, noEmptyNodes v = true → entriesV v ≠ []
  | .scalar s => by intro _; rw [entriesV]; simp
  | .list xs => by
    intro h
    rw [noEmptyNodes, Bool.and_eq_true] at h
    rw [entriesV]
    exact entriesL_ne_nil xs 0 (by simpa using h.1) h.2
  | .dict kvs => by
    intro h
    rw [noEmptyNodes, Bool.and_eq_true] at h
    rw [entriesV]
    exact entriesD_ne_nil kvs (by simpa using h.1) h.2

theorem entriesL_ne_nil :
    ∀ (xs : List Value) (i : Nat), xs ≠ [] → noEmptyNodesL xs = true → entriesL i xs ≠ []
  | [], _ => by intro h _; exact absurd rfl h
  | v :: rest, i => by
    intro _ h
    rw [noEmptyNodesL, Bool.and_eq_true] at h
    rw [entriesL]
    intro hcontra
    rcases List.append_eq_nil.mp hcontra with ⟨h1, _⟩
    exact entriesV_ne_nil v h.1 (List.map_eq_nil_iff.mp h1)

theorem entriesD_ne_nil :
    ∀ (kvs : List (String × Value)), kvs ≠ [] → noEmptyNodesD kvs = true → entriesD kvs ≠ []
  | [] => by intro h _; exact absurd rfl h
  | (k, v) :: rest => by
    intro _ h
    rw [noEmptyNodesD, Bool.and_eq_true] at h
    rw [entriesD]
    intro hcontra
    rcases List.append_eq_nil.mp hcontra with ⟨h1, _⟩
    exact entriesV_ne_nil v h.1 (List.map_eq_nil_iff.mp h1)
end

theorem isNanValue_of_noNaN {s : Scalar} (h : noNaN (.scalar s) = true) :
    isNanValue (.scalar s) = false := by
  cases s <;> first | rfl | (rw [noNaN] at h; simp at h)

mutual
theorem build_entriesV :
    ∀ (v : Value) (k : String) (kvs : List (String × Value)),
      noNaN v = true → noEmptyNodes v = true → nodupKeys v = true →
      assocGet kvs k = none →
      buildSegs ((entriesV v).map (fun e => (k :: e.1, e.2))) (.dict kvs) =
        .ok (.dict (kvs ++ [(k, reconstructV v)]))
  | .scalar s, k, kvs => by
    intro hnan _ _ habs
    rw [entriesV, reconstructV]
    rw [List.map_cons, List.map_nil, buildSegs]
    have hwe : walkEntry (.dict kvs) ([k], .scalar s) =
        .ok (.dict (assocSet kvs k (.scalar s))) := by
      show walkAssign (.dict kvs) [] k (isNanValue (.scalar s)) (.scalar s) = _
      rw [isNanValue_of_noNaN hnan, walkAssign, if_neg (by simp)]
    rw [hwe]
    show buildSegs [] (.dict (assocSet kvs k (.scalar s))) = _
    rw [buildSegs, assocSet_absent kvs k _ habs]
  | .list xs, k, kvs => by
    intro hnan hemp hnodup habs
    rw [entriesV, reconstructV]
    rw [noNaN] at hnan
    rw [noEmptyNodes, Bool.and_eq_true] at hemp
    rw [nodupKeys] at hnodup
    rw [buildSegs_new_key (entriesL 0 xs) k kvs habs
      (entriesL_ne_nil xs 0 (by simpa using hemp.1) hemp.2)
      (fun e he => by obtain ⟨j, π, h1, _, _⟩ := entriesL_shape xs 0 e he; simp [h1])]
    rw [build_entriesL xs 0 [] hnan hemp.2 hnodup (fun j _ => rfl)]
    show Except.ok (Value.dict (assocSet kvs k (Value.dict (reconL 0 xs)))) = _
    rw [assocSet_absent kvs k _ habs]
  | .dict cs, k, kvs => by
    intro hnan hemp hnodup habs
    rw [entriesV, reconstructV]
    rw [noNaN] at hnan
    rw [noEmptyNodes, Bool.and_eq_true] at hemp
    rw [nodupKeys] at hnodup
    rw [buildSegs_new_key (entriesD cs) k kvs habs
      (entriesD_ne_nil cs (by simpa using hemp.1) hemp.2)
      (fun e he => by obtain ⟨k', π, h1, _⟩ := entriesD_shape cs e he; simp [h1])]
    rw [build_entriesD cs [] hnan hemp.2 hnodup (fun k' _ => rfl)]
    show Except.ok (Value.dict (assocSet kvs k (Value.dict (reconD cs)))) = _
    rw [assocSet_absent kvs k _ habs]

theorem build_entriesL :
    ∀ (xs : List Value) (i : Nat) (kvs : List (String × Value)),
      noNaNL xs = true → noEmptyNodesL xs = true → nodupKeysL xs = true →
      (∀ j : Nat, i ≤ j → assocGet kvs (natToStr j) = none) →
      buildSegs (entriesL i xs) (.dict kvs) = .ok (.dict (kvs ++ reconL i xs))
  | [], i, kvs => by
    intro _ _ _ _
    rw [entriesL, reconL, buildSegs]
    simp
  | v :: rest, i, kvs => by
    intro hnan hemp hnodup habs
    rw [noNaNL, Bool.and_eq_true] at hnan
    rw [noEmptyNodesL, Bool.and_eq_true] at hemp
    rw [nodupKeysL, Bool.and_eq_true] at hnodup
    have habs' : ∀ j : Nat, i + 1 ≤ j →
        assocGet (kvs ++ [(natToStr i, reconstructV v)]) (natToStr j) = none := by
      intro j hj
      rw [assocGet_append, habs j (by omega)]
      show assocGet [(natToStr i, reconstructV v)] (natToStr j) = none
      rw [assocGet, if_neg (fun he => by have := natToStr_inj he; omega), assocGet]
    rw [entriesL, reconL, buildSegs_append,
      build_entriesV v (natToStr i) kvs hnan.1 hemp.1 hnodup.1 (habs i le_rfl)]
    show buildSegs (entriesL (i + 1) rest) (.dict (kvs ++ [(natToStr i, reconstructV v)])) = _
    rw [build_entriesL rest (i + 1) _ hnan.2 hemp.2 hnodup.2 habs', List.append_assoc]
    rfl

theorem build_entriesD :
    ∀ (cs kvs : List (String × Value)),
      noNaND cs = true → noEmptyNodesD cs = true → nodupKeysD cs = true →
      (∀ k' ∈ keysOf cs, assocGet kvs k' = none) →
      buildSegs (entriesD cs) (.dict kvs) = .ok (.dict (kvs ++ reconD cs))
  | [], kvs => by
    intro _ _ _ _
    rw [entriesD, reconD, buildSegs]
    simp
  | (k, v) :: rest, kvs => by
    intro hnan hemp hnodup habs
    rw [noNaND, Bool.and_eq_true] at hnan
    rw [noEmptyNodesD, Bool.and_eq_true] at hemp
    rw [nodupKeysD, Bool.and_eq_true, Bool.and_eq_true] at hnodup
    have habs' : ∀ k' ∈ keysOf rest,
        assocGet (kvs ++ [(k, reconstructV v)]) k' = none := by
      intro k' hk'
      rw [assocGet_append, habs k' (by simp [keysOf] at hk' ⊢; exact Or.inr hk')]
      show assocGet [(k, reconstructV v)] k' = none
      rw [assocGet, if_neg (fun he =>
        keyAbsent_forall (keysOf rest) k hnodup.1.1 k' hk' he.symm), assocGet]
    rw [entriesD, reconD, buildSegs_append,
      build_entriesV v k kvs hnan.1 hemp.1 hnodup.1.2 (habs k (by simp [keysOf]))]
    show buildSegs (entriesD rest) (.dict (kvs ++ [(k, reconstructV v)])) = _
    rw [build_entriesD rest _ hnan.2 hemp.2 hnodup.2 habs', List.append_assoc]
    rfl
end

/-! ### `convert_to_list` undoes the reconstruction -/

theorem reconL_eq_enumDict :
    ∀ (xs : List Value) (i : Nat), reconL i xs = enumDict i (xs.map reconstructV) := by
  intro xs
  induction xs with
  | nil => intro i; rfl
  | cons v rest ih => intro i; rw [reconL, List.map_cons, enumDict, ih (i + 1)]

mutual
theorem reconstructV_of_listFree :
    ∀ v : Value, listFree v = true → reconstructV v = v
  | .scalar s => by intro _; rfl
  | .list xs => by intro h; rw [listFree] at h; cases h
  | .dict kvs => by
    intro h
    rw [listFree] at h
    rw [reconstructV, reconD_of_listFree kvs h]

theorem reconD_of_listFree :
    ∀ kvs : List (String × Value), listFreeD kvs = true → reconD kvs = kvs
  | [] => by intro _; rfl
  | (k, v) :: rest => by
    intro h
    rw [listFreeD, Bool.and_eq_true] at h
    rw [reconD, reconstructV_of_listFree v h.1, reconD_of_listFree rest h.2]
end

theorem keysOf_reconD : ∀ kvs : List (String × Value), keysOf (reconD kvs) = keysOf kvs := by
  intro kvs
  induction kvs with
  | nil => rfl
  | cons e rest ih =>
    obtain ⟨k, v⟩ := e
    rw [reconD]
    simp only [keysOf, List.map_cons] at ih ⊢
    rw [ih]

theorem mapParse_keys_only :
    ∀ kvs1 kvs2 : List (String × Value), keysOf kvs1 = keysOf kvs2 →
      mapParse kvs1 = mapParse kvs2 := by
  intro kvs1
  induction kvs1 with
  | nil =>
    intro kvs2 h
    match kvs2 with
    | [] => rfl
    | e :: r => simp [keysOf] at h
  | cons e r1 ih =>
    intro kvs2 h
    match kvs2 with
    | [] => simp [keysOf] at h
    | e2 :: r2 =>
      simp only [keysOf, List.map_cons, List.cons.injEq] at h
      rw [mapParse, mapParse, h.1, ih r2 h.2]

theorem convertibleKeys_keys_only :
    ∀ kvs1 kvs2 : List (String × Value), keysOf kvs1 = keysOf kvs2 →
      convertibleKeys kvs1 = convertibleKeys kvs2 := by
  intro kvs1 kvs2 h
  rw [convertibleKeys, convertibleKeys, mapParse_keys_only kvs1 kvs2 h]

theorem convert_dict_of_not_convertible :
    ∀ kvs : List (String × Value), convertibleKeys kvs = false →
      convert_to_list (.dict kvs) =
        match convertVals kvs with
        | .ok kvs' => .ok (.dict kvs')
        | .error u => .error u := by
  intro kvs h
  rw [convertibleKeys] at h
  rcases hmp : mapParse kvs with _ | ks
  · simp only [convert_to_list, hmp]
  · simp only [hmp] at h
    rcases hmin : pyMin (List.insertionSort (· ≤ ·) ks) with _ | lo
    · simp only [convert_to_list, hmp, hmin]
    · rcases hmax : pyMax (List.insertionSort (· ≤ ·) ks) with _ | hi
      · simp only [convert_to_list, hmp, hmin, hmax]
      · simp only [hmin, hmax] at h
        simp only [convert_to_list, hmp, hmin, hmax, if_neg (by simpa using h)]

theorem noNestedListsL_listFree :
    ∀ xs : List Value, noNestedListsL xs = true → ∀ x ∈ xs, listFree x = true := by
  intro xs
  induction xs with
  | nil => intro _ x hx; simp at hx
  | cons y ys ih =>
    intro h x hx
    rw [noNestedListsL, Bool.and_eq_true] at h
    rcases List.mem_cons.mp hx with rfl | hx'
    · exact h.1
    · exact ih h.2 x hx'

mutual
theorem convert_reconstructV :
    ∀ v : Value, noEmptyNodes v = true → noConvertibleDict v = true →
      noNestedLists v = true →
      convert_to_list (reconstructV v) = .ok v
  | .scalar s => by intro _ _ _; rfl
  | .list xs => by
    intro hemp _ hnest
    rw [noEmptyNodes, Bool.and_eq_true] at hemp
    rw [noNestedLists] at hnest
    rw [reconstructV, reconL_eq_enumDict xs 0]
    have hfix : xs.map reconstructV = xs := by
      have hall : ∀ x ∈ xs, reconstructV x = x := fun x hx =>
        reconstructV_of_listFree x (noNestedListsL_listFree xs hnest x hx)
      calc xs.map reconstructV = xs.map id := List.map_congr_left hall
        _ = xs := List.map_id xs
    rw [hfix]
    exact convert_to_list_enumDict xs (by simpa using hemp.1)
  | .dict cs => by
    intro hemp hconv hnest
    rw [noEmptyNodes, Bool.and_eq_true] at hemp
    rw [noConvertibleDict, Bool.and_eq_true] at hconv
    rw [noNestedLists] at hnest
    rw [reconstructV]
    have hck : convertibleKeys (reconD cs) = false := by
      rw [convertibleKeys_keys_only (reconD cs) cs (keysOf_reconD cs)]
      simpa using hconv.1
    rw [convert_dict_of_not_convertible (reconD cs) hck,
      convert_reconD cs hemp.2 hconv.2 hnest]

theorem convert_reconD :
    ∀ cs : List (String × Value), noEmptyNodesD cs = true → noConvertibleDictD cs = true →
      noNestedListsD cs = true →
      convertVals (reconD cs) = .ok cs
  | [] => by intro _ _ _; rfl
  | (k, v) :: rest => by
    intro hemp hconv hnest
    rw [noEmptyNodesD, Bool.and_eq_true] at hemp
    rw [noConvertibleDictD, Bool.and_eq_true] at hconv
    rw [noNestedListsD, Bool.and_eq_true] at hnest
    rw [reconD, convertVals,
      convert_reconstructV v hemp.1 hconv.1 hnest.1,
      convert_reconD rest hemp.2 hconv.2 hnest.2]
end

/-! ### The round trip (C1) -/

theorem filterMap_all_some {α β : Type} (h : α → Option β) (m : α → β) :
    ∀ l : List α, (∀ e ∈ l, h e = some (m e)) → l.filterMap h = l.map m := by
  intro l
  induction l with
  | nil => intro _; rfl
  | cons e l' ih =>
    intro hall
    rw [List.filterMap_cons_some (hall e (by simp)), List.map_cons,
      ih (fun x hx => hall x (by simp [hx]))]

/-- C1, counterexample: `v = [[1]]` contains only zero-based contiguous
sequences and no NaN scalars, yet `unflatten(flatten(v))` returns
`[{"0": 1}]`, not `v`: the conversion pass does not recurse into the
elements of a converted node, so the inner list stays a numeric-keyed
mapping. -/
theorem claim_C1_counterexample :
    unflatten (flattenStr (.list [.list [.scalar (.int 1)]])) =
      .ok (.list [.dict [("0", .scalar (.int 1))]]) ∧
    ¬(unflatten (flattenStr (.list [.list [.scalar (.int 1)]])) =
      .ok (.list [.list [.scalar (.int 1)]])) := by
  refine ⟨rfl, ?_⟩
  intro h
  rw [show unflatten (flattenStr (.list [.list [.scalar (.int 1)]])) =
    .ok (.list [.dict [("0", .scalar (.int 1))]]) from rfl] at h
  simp at h

/-- C1, amended: the round trip `unflatten(flatten(v)) = v` holds for every
`v` that is a mapping or sequence at its root and in which: every mapping
key is plain ASCII (Python's `int()` also accepts non-ASCII decimal
digits, outside the model; on ASCII keys the parse model agrees with
`int()` exactly); no mapping key contains the delimiter; mapping keys are
pairwise distinct (true of every Python dict); no scalar is NaN; no
mapping or sequence is empty; no mapping node has keys that `int()` parses
to a contiguous range (such a node would come back as a sequence, or raise
`KeyError` for non-canonical renderings such as `" 1"` or `"1_000"`); and
no sequence occurs strictly inside another sequence (the conversion pass
does not recurse into converted elements).  Each hypothesis excludes an
actual failure mode of the code. -/
theorem claim_C1_amended (v : Value) (hroot : isContainer v = true)
    (_hascii : asciiKeys v = true)
    (hdot : dotFreeKeys v = true) (hnodup : nodupKeys v = true) (hnan : noNaN v = true)
    (hemp : noEmptyNodes v = true) (hconv : noConvertibleDict v = true)
    (hnest : noNestedLists v = true) :
    unflatten (flattenStr v) = .ok v := by
  have hpaths : ∀ e ∈ entriesV v, e.1 ≠ [] ∧ (∀ g ∈ e.1, dotFreeStr g = true) := by
    intro e he
    refine ⟨?_, entriesV_dotfree v hdot e he⟩
    cases v with
    | scalar s => rw [isContainer] at hroot; cases hroot
    | list xs =>
      rw [entriesV] at he
      obtain ⟨j, π, h1, _, _⟩ := entriesL_shape xs 0 e he
      simp [h1]
    | dict cs =>
      rw [entriesV] at he
      obtain ⟨k, π, h1, _⟩ := entriesD_shape cs e he
      simp [h1]
  have htop : flattenTop v = (entriesV v).map (fun e => (segsToKey e.1, e.2)) :=
    flatten_entriesV v [] hdot hnodup (by intro g hg; simp at hg)
  have hfs : flattenStr v = (entriesV v).map (fun e => (joinDot e.1, e.2)) := by
    rw [flattenStr, htop, List.filterMap_map]
    refine filterMap_all_some _ _ (entriesV v) ?_
    intro e he
    show (segsToKey e.1).map (fun k => (k, e.2)) = some (joinDot e.1, e.2)
    rw [segsToKey_of_ne_nil (hpaths e he).1]
    rfl
  have hbuild : buildNested (flattenStr v) (.dict []) = .ok (reconstructV v) := by
    rw [hfs, buildNested_eq_buildSegs (entriesV v) _ hpaths]
    cases v with
    | scalar s => rw [isContainer] at hroot; cases hroot
    | list xs =>
      rw [noNaN] at hnan
      rw [noEmptyNodes, Bool.and_eq_true] at hemp
      rw [nodupKeys] at hnodup
      rw [entriesV, reconstructV]
      exact build_entriesL xs 0 [] hnan hemp.2 hnodup (fun j _ => rfl)
    | dict cs =>
      rw [noNaN] at hnan
      rw [noEmptyNodes, Bool.and_eq_true] at hemp
      rw [nodupKeys] at hnodup
      rw [entriesV, reconstructV]
      exact build_entriesD cs [] hnan hemp.2 hnodup (fun k' _ => rfl)
  rw [unflatten, hbuild]
  exact convert_reconstructV v hemp hconv hnest

/-- Witness for C1's amended round trip on
`{"a": 1, "f": [4, 5]}`. -/
theorem claim_C1_witness :
    unflatten (flattenStr (.dict [("a", .scalar (.int 1)),
      ("f", .list [.scalar (.int 4), .scalar (.int 5)])])) =
      .ok (.dict [("a", .scalar (.int 1)),
        ("f", .list [.scalar (.int 4), .scalar (.int 5)])]) :=
  claim_C1_amended (.dict [("a", .scalar (.int 1)),
    ("f", .list [.scalar (.int 4), .scalar (.int 5)])]) rfl rfl rfl rfl rfl rfl rfl rfl

/-- Witness for C4's amended characterization at the node
`{"1": "a", "2": "b"}` (non-zero start, contiguous, canonical keys). -/
theorem claim_C4_witness :
    convert_to_list (.dict [("1", Value.scalar (.str "a")), ("2", Value.scalar (.str "b"))]) =
      .ok (.list [Value.scalar (.str "a"), Value.scalar (.str "b")]) :=
  (claim_C4_amended.1 [("1", Value.scalar (.str "a")), ("2", Value.scalar (.str "b"))]
    [Value.scalar (.str "a"), Value.scalar (.str "b")]).mpr
    ⟨[1, 2], rfl, 1, 2, rfl, rfl, rfl, rfl⟩
